import Mathlib

/-!
Verification development for the PDF editor's document edit-state engine:
the geometry utilities (`frontend/src/lib/geometry.ts`), the annotation and
page model with its ops-log undo/redo engine
(`frontend/src/stores/editor-store.ts`), and the export compositor
(`frontend/src/lib/pdf/export.ts`).

Modelling conventions:
* JavaScript numbers that carry geometry are embedded as rationals (ℚ); the
  source only ever compares the square roots produced by `Math.sqrt`, and
  comparison of square roots of nonnegative rationals coincides with
  comparison of the radicands, so distances are tracked squared.
* `Date.now()` and `generateId()` are nondeterministic inputs, threaded into
  the mutators as explicit `now`/`opId` arguments.
* JS `Map` is an insertion-ordered association list with unique keys, a JS
  `Set` an insertion-ordered duplicate-free list, and a `Record<number, _>`
  an association list whose enumeration (`Object.entries`) is in ascending
  numeric key order.
* JS `%` on integers is the truncated remainder, `Int.tmod`.
-/

namespace PDFEditor

/-! ## Geometry (`geometry.ts`) -/

/-- A 2-D point with rational coordinates (document space). -/
structure Point where
  x : ℚ
  y : ℚ
deriving DecidableEq, Repr

instance : Inhabited Point := ⟨⟨0, 0⟩⟩

/-- Squared Euclidean distance; the source's `distance` is its square root. -/
def distSq (p1 p2 : Point) : ℚ :=
  (p2.x - p1.x) * (p2.x - p1.x) + (p2.y - p1.y) * (p2.y - p1.y)

/-- Squared value of the source's `perpendicularDistance` (distance from
`point` to the segment `lineStart`–`lineEnd`, with the parameter `t` clamped
to `[0,1]` exactly as in the source). -/
def perpDistSq (point lineStart lineEnd : Point) : ℚ :=
  let dx := lineEnd.x - lineStart.x
  let dy := lineEnd.y - lineStart.y
  if dx = 0 ∧ dy = 0 then
    distSq point lineStart
  else
    let t0 := ((point.x - lineStart.x) * dx + (point.y - lineStart.y) * dy) /
      (dx * dx + dy * dy)
    let t := max 0 (min 1 t0)
    distSq point ⟨lineStart.x + t * dx, lineStart.y + t * dy⟩

/-- One iteration of `simplifyPath`'s scan loop: update the running
`(maxDistance, maxIndex)` pair when the current point is strictly farther
from the chord (so the first occurrence of the maximum wins, as in the
source's `d > maxDistance` test). Distances are tracked squared. -/
def scanStep (first last : Point) (acc : ℚ × Nat) (ip : Nat × Point) : ℚ × Nat :=
  if perpDistSq ip.2 first last > acc.1 then (perpDistSq ip.2 first last, ip.1) else acc

/-- The scan loop of `simplifyPath`: over the interior points (indices `1` to
`length - 2`) find the squared distance of the farthest point from the chord
`first`–`last`, together with the index of its first occurrence; `(0, 0)`
when no point is strictly farther than `0`. -/
def scanFarthest (first last : Point) (points : List Point) : ℚ × Nat :=
  (List.enumFrom 1 (points.drop 1).dropLast).foldl (scanStep first last) (0, 0)

/-- Fuel-indexed body of `simplifyPath` (Ramer–Douglas–Peucker).  The fuel
only serves Lean's termination checker; `simplifyPath` supplies
`points.length`, which is enough fuel to never hit the `0` case (see
`simplifyPathFuel_congr`).  The source compares `maxDistance > epsilon` on
square roots; here both sides are squared (`epsilon * epsilon`), which agrees
with the source for the nonnegative `epsilon` the API is called with. -/
def simplifyPathFuel : Nat → List Point → ℚ → List Point
  | 0, points, _ => points
  | fuel + 1, points, epsilon =>
    if points.length ≤ 2 then points
    else
      let first := points.headD default
      let last := points.getLastD default
      let scan := scanFarthest first last points
      if scan.1 > epsilon * epsilon then
        let left := simplifyPathFuel fuel (points.take (scan.2 + 1)) epsilon
        let right := simplifyPathFuel fuel (points.drop scan.2) epsilon
        left.dropLast ++ right
      else
        [first, last]

/-- `simplifyPath(points, epsilon)` from `geometry.ts`. -/
def simplifyPath (points : List Point) (epsilon : ℚ) : List Point :=
  simplifyPathFuel points.length points epsilon

/-! ## Export colour parsing (`export.ts`) -/

/-- Character class `[a-f\d]` of the source's regex, case-insensitive. -/
def isHexDigitChar (c : Char) : Bool :=
  ('0' ≤ c ∧ c ≤ '9') ∨ ('a' ≤ c ∧ c ≤ 'f') ∨ ('A' ≤ c ∧ c ≤ 'F')

/-- Numeric value of a hex digit (as consumed by `parseInt(_, 16)`). -/
def hexDigitVal (c : Char) : Nat :=
  if c ≤ '9' then c.toNat - 48
  else if c ≤ 'F' then c.toNat - 55
  else c.toNat - 87

/-- The captured part of `hexToRgb`'s regex after the optional `#`:
exactly six hex digits, captured pairwise. -/
def hexMatchCore : List Char → Option (Nat × Nat × Nat)
  | [a, b, c, d, e, f] =>
    if isHexDigitChar a ∧ isHexDigitChar b ∧ isHexDigitChar c ∧
        isHexDigitChar d ∧ isHexDigitChar e ∧ isHexDigitChar f then
      some (16 * hexDigitVal a + hexDigitVal b,
            16 * hexDigitVal c + hexDigitVal d,
            16 * hexDigitVal e + hexDigitVal f)
    else none
  | _ => none

/-- The regex `/^#?([a-f\d]{2})([a-f\d]{2})([a-f\d]{2})$/i` of `hexToRgb`:
an optional `#`, then exactly six hex digits, captured pairwise. -/
def hexMatch (hex : String) : Option (Nat × Nat × Nat) :=
  hexMatchCore (match hex.data with
    | '#' :: rest => rest
    | other => other)

/-- `hexToRgb` from `export.ts`: non-matching strings map to black
`{r: 0, g: 0, b: 0}`; matches are scaled by `1/255`. -/
def hexToRgb (hex : String) : ℚ × ℚ × ℚ :=
  match hexMatch hex with
  | none => (0, 0, 0)
  | some (r, g, b) => ((r : ℚ) / 255, (g : ℚ) / 255, (b : ℚ) / 255)

/-- The claim's wording of the colour-string pattern, stated independently of
`hexMatch`: an optional `#` followed by exactly six hexadecimal digits. -/
def hexColorPattern (s : String) : Bool :=
  let cs := match s.data with
    | '#' :: rest => rest
    | other => other
  cs.length = 6 ∧ cs.all isHexDigitChar

/-! ## Annotation and page data model (`editor-store.ts`)

The TypeScript `Annotation` is a structural union whose variants share the
base fields; the store manipulates it only by whole-object spreads
(`{...existing, ...changes}`), so it is embedded as one flat record in which
the variant payload fields are optional.  `Path` is renamed `InkPath`
(Mathlib already owns the name `Path`) and `end` is renamed `endPoint`
(`end` is a Lean keyword). -/

/-- The ten annotation kinds of `AnnotationType`. -/
inductive AnnotationType where
  | highlight | underline | strikethrough | note | rectangle
  | ellipse | arrow | line | ink | text
deriving DecidableEq, Repr

/-- `AnnotationStyle`. -/
structure AnnotationStyle where
  color : String
  opacity : ℚ
  strokeWidth : Option ℚ := none
  fontSize : Option ℚ := none
  fontFamily : Option String := none
deriving DecidableEq, Repr

/-- `Rect`. -/
structure Rect where
  x : ℚ
  y : ℚ
  width : ℚ
  height : ℚ
deriving DecidableEq, Repr

/-- `QuadPoints`: a list of 8-number quads. -/
structure QuadPoints where
  points : List (List ℚ)
deriving DecidableEq, Repr

/-- The source's `Path` (one ink stroke). -/
structure InkPath where
  points : List Point
  closed : Option Bool := none
deriving DecidableEq, Repr

/-- The `Annotation` union, flattened: base fields plus the optional payload
fields of every variant. -/
@[ext]
structure Annotation where
  id : String
  type : AnnotationType
  pageIndex : Nat
  style : AnnotationStyle
  createdAt : Nat
  updatedAt : Nat
  quadPoints : Option QuadPoints := none
  selectedText : Option String := none
  position : Option Point := none
  content : Option String := none
  isOpen : Option Bool := none
  rect : Option Rect := none
  start : Option Point := none
  endPoint : Option Point := none
  paths : Option (List InkPath) := none
deriving DecidableEq, Repr

/-- `Partial<Annotation>`: each field is `some v` when the key is present in
the partial object (with value `v`) and `none` when the key is absent. -/
@[ext]
structure AnnotationPatch where
  id : Option String := none
  type : Option AnnotationType := none
  pageIndex : Option Nat := none
  style : Option AnnotationStyle := none
  createdAt : Option Nat := none
  updatedAt : Option Nat := none
  quadPoints : Option (Option QuadPoints) := none
  selectedText : Option (Option String) := none
  position : Option (Option Point) := none
  content : Option (Option String) := none
  isOpen : Option (Option Bool) := none
  rect : Option (Option Rect) := none
  start : Option (Option Point) := none
  endPoint : Option (Option Point) := none
  paths : Option (Option (List InkPath)) := none
deriving DecidableEq, Repr

/-- The object spread `{...a, ...p}`: fields present in `p` override `a`. -/
def applyPatch (a : Annotation) (p : AnnotationPatch) : Annotation where
  id := p.id.getD a.id
  type := p.type.getD a.type
  pageIndex := p.pageIndex.getD a.pageIndex
  style := p.style.getD a.style
  createdAt := p.createdAt.getD a.createdAt
  updatedAt := p.updatedAt.getD a.updatedAt
  quadPoints := p.quadPoints.getD a.quadPoints
  selectedText := p.selectedText.getD a.selectedText
  position := p.position.getD a.position
  content := p.content.getD a.content
  isOpen := p.isOpen.getD a.isOpen
  rect := p.rect.getD a.rect
  start := p.start.getD a.start
  endPoint := p.endPoint.getD a.endPoint
  paths := p.paths.getD a.paths

/-- `updateAnnotation`'s `previousState` capture: for every key present in
`changes`, record the annotation's current value under that key. -/
def snapshotPatch (a : Annotation) (changes : AnnotationPatch) : AnnotationPatch where
  id := changes.id.map fun _ => a.id
  type := changes.type.map fun _ => a.type
  pageIndex := changes.pageIndex.map fun _ => a.pageIndex
  style := changes.style.map fun _ => a.style
  createdAt := changes.createdAt.map fun _ => a.createdAt
  updatedAt := changes.updatedAt.map fun _ => a.updatedAt
  quadPoints := changes.quadPoints.map fun _ => a.quadPoints
  selectedText := changes.selectedText.map fun _ => a.selectedText
  position := changes.position.map fun _ => a.position
  content := changes.content.map fun _ => a.content
  isOpen := changes.isOpen.map fun _ => a.isOpen
  rect := changes.rect.map fun _ => a.rect
  start := changes.start.map fun _ => a.start
  endPoint := changes.endPoint.map fun _ => a.endPoint
  paths := changes.paths.map fun _ => a.paths

/-- The `Operation` union of the ops-log.  `id` and `timestamp` are the
`generateId()` / `Date.now()` values recorded at creation. -/
inductive Operation where
  | add_annotation (id : String) (timestamp : Nat) ( annotation : Annotation)
  | update_annotation (id : String) (timestamp : Nat) (annotationId : String)
      (changes previousState : AnnotationPatch)
  | delete_annotation (id : String) (timestamp : Nat) ( annotation : Annotation)
  | rotate_page (id : String) (timestamp : Nat) (pageIndex : Nat)
      (rotation previousRotation : Int)
  | delete_page (id : String) (timestamp : Nat) (pageIndex : Nat)
  | reorder_pages (id : String) (timestamp : Nat) (fromIndex toIndex : Nat)
deriving DecidableEq, Repr

/-! ## JS collection primitives -/

/-- `Map.get`. -/
def mapGet (m : List (String × Annotation)) (k : String) : Option Annotation :=
  (m.find? fun e => e.1 = k).map (·.2)

/-- `Map.set`: overwrite in place when the key exists, else append. -/
def mapSet (m : List (String × Annotation)) (k : String) (v : Annotation) :
    List (String × Annotation) :=
  if m.any fun e => e.1 = k then
    m.map fun e => if e.1 = k then (k, v) else e
  else m ++ [(k, v)]

/-- `Map.delete`. -/
def mapDelete (m : List (String × Annotation)) (k : String) :
    List (String × Annotation) :=
  m.filter fun e => ¬ e.1 = k

/-- `Record<number, number>` read with default: `r[k] || 0`. -/
def recGet (r : List (Nat × Int)) (k : Nat) : Int :=
  ((r.find? fun e => e.1 = k).map (·.2)).getD 0

/-- Record spread `{...r, [k]: v}`: overwrite in place or append. -/
def recSet (r : List (Nat × Int)) (k : Nat) (v : Int) : List (Nat × Int) :=
  if r.any fun e => e.1 = k then
    r.map fun e => if e.1 = k then (k, v) else e
  else r ++ [(k, v)]

/-- `Set.add`: append if absent. -/
def setAdd (s : List Nat) (x : Nat) : List Nat :=
  if x ∈ s then s else s ++ [x]

/-- `Set.delete`. -/
def setDelete (s : List Nat) (x : Nat) : List Nat :=
  s.erase x

/-- `array.splice(i, 0, x)`: insert `x` at position `i`, clamped to the end
when `i` exceeds the length (JS splice semantics). -/
def spliceInsert (i : Nat) (x : Nat) (l : List Nat) : List Nat :=
  l.take i ++ [x] ++ l.drop i

/-- The two-splice move `const [removed] = l.splice(from, 1); l.splice(to, 0,
removed)` used by `reorderPages` and its undo/redo.  When `from` is out of
range the source's first splice removes nothing and the second inserts the
JS value `undefined` into the array; that branch is modelled as the identity
(it corrupts the array in the source and is proved unreachable for the
guarded call sites considered here, see `inv_reachable`). -/
def jsMove (fromIndex toIndex : Nat) (l : List Nat) : List Nat :=
  match l.get? fromIndex with
  | some removed =>
    let l' := l.take fromIndex ++ l.drop (fromIndex + 1)
    l'.take toIndex ++ [removed] ++ l'.drop toIndex
  | none => l

/-! ## The editor store (`editor-store.ts`)

The store is embedded from the point where a document is loaded.  Fields
that are pure view/UI state (`scale`, `activeTool`, selections, search,
sidebar flags) or opaque (`pdfData`, hashes, `Date` objects on the document
record) do not interact with the claims' model and are omitted;
`currentPage` is kept because `deletePage` clamps it. -/

/-- The document-plus-ops-log portion of `EditorState`. -/
@[ext]
structure EditorState where
  numPages : Nat
  pageRotations : List (Nat × Int)
  deletedPages : List Nat
  pageOrder : List Nat
  annotations : List (String × Annotation)
  operations : List Operation
  undoStack : List Operation
  redoStack : List Operation
  currentPage : Nat
deriving DecidableEq, Repr

/-- `loadDocument`: fresh model with identity page order and empty log. -/
def loadDocument (numPages : Nat) : EditorState where
  numPages := numPages
  pageRotations := []
  deletedPages := []
  pageOrder := List.range numPages
  annotations := []
  operations := []
  undoStack := []
  redoStack := []
  currentPage := 1

/-- `addAnnotation`. -/
def addAnnotation ( annotation : Annotation) (opId : String) (now : Nat)
    (s : EditorState) : EditorState :=
  let operation := Operation.add_annotation opId now annotation
  { s with
    annotations := mapSet s.annotations annotation.id annotation
    operations := s.operations ++ [operation]
    undoStack := s.undoStack ++ [operation]
    redoStack := [] }

/-- Overwrite an annotation's `updatedAt` with the clock value (the final
`updatedAt: Date.now()` member of the update spread). -/
def stampUpdatedAt (a : Annotation) (now : Nat) : Annotation :=
  { a with updatedAt := now }

/-- `updateAnnotation`: no-op when the id is absent; otherwise snapshot the
changed keys, apply the changes, stamp `updatedAt` with the clock. -/
def updateAnnotation (id : String) (changes : AnnotationPatch) (opId : String)
    (now : Nat) (s : EditorState) : EditorState :=
  match mapGet s.annotations id with
  | none => s
  | some existing =>
    let previousState := snapshotPatch existing changes
    let operation := Operation.update_annotation opId now id changes previousState
    let updated := stampUpdatedAt (applyPatch existing changes) now
    { s with
      annotations := mapSet s.annotations id updated
      operations := s.operations ++ [operation]
      undoStack := s.undoStack ++ [operation]
      redoStack := [] }

/-- `deleteAnnotation`: no-op when the id is absent; otherwise snapshot the
whole annotation into the operation and remove it. -/
def deleteAnnotation (id : String) (opId : String) (now : Nat)
    (s : EditorState) : EditorState :=
  match mapGet s.annotations id with
  | none => s
  | some annotation =>
    let operation := Operation.delete_annotation opId now annotation
    { s with
      annotations := mapDelete s.annotations id
      operations := s.operations ++ [operation]
      undoStack := s.undoStack ++ [operation]
      redoStack := [] }

/-- `rotatePage`: `newRotation = (previousRotation + degrees) % 360` with the
JS truncated remainder. -/
def rotatePage (pageIndex : Nat) (degrees : Int) (opId : String) (now : Nat)
    (s : EditorState) : EditorState :=
  let previousRotation := recGet s.pageRotations pageIndex
  let newRotation := Int.tmod (previousRotation + degrees) 360
  let operation := Operation.rotate_page opId now pageIndex degrees previousRotation
  { s with
    pageRotations := recSet s.pageRotations pageIndex newRotation
    operations := s.operations ++ [operation]
    undoStack := s.undoStack ++ [operation]
    redoStack := [] }

/-- `deletePage`: silently returns when at most one page is displayed;
otherwise marks the page deleted, filters it out of the order and clamps
`currentPage`. -/
def deletePage (pageIndex : Nat) (opId : String) (now : Nat)
    (s : EditorState) : EditorState :=
  if s.pageOrder.length ≤ 1 then s
  else
    let operation := Operation.delete_page opId now pageIndex
    let newPageOrder := s.pageOrder.filter fun i => ¬ i = pageIndex
    { s with
      deletedPages := setAdd s.deletedPages pageIndex
      pageOrder := newPageOrder
      currentPage := min s.currentPage newPageOrder.length
      operations := s.operations ++ [operation]
      undoStack := s.undoStack ++ [operation]
      redoStack := [] }

/-- `reorderPages`. -/
def reorderPages (fromIndex toIndex : Nat) (opId : String) (now : Nat)
    (s : EditorState) : EditorState :=
  let operation := Operation.reorder_pages opId now fromIndex toIndex
  { s with
    pageOrder := jsMove fromIndex toIndex s.pageOrder
    operations := s.operations ++ [operation]
    undoStack := s.undoStack ++ [operation]
    redoStack := [] }

/-- The model mutation performed by `undo`'s `switch` on the popped
operation.  Note the `delete_page` case: `newOrder.splice(operation.pageIndex,
0, operation.pageIndex)` splices at array position `pageIndex`. -/
def undoOp (operation : Operation) (s : EditorState) : EditorState :=
  match operation with
  | Operation.add_annotation _ _ annotation =>
    { s with annotations := mapDelete s.annotations annotation.id }
  | Operation.update_annotation _ _ annotationId _ previousState =>
    match mapGet s.annotations annotationId with
    | some existing =>
      { s with annotations :=
          mapSet s.annotations annotationId (applyPatch existing previousState) }
    | none => s
  | Operation.delete_annotation _ _ annotation =>
    { s with annotations := mapSet s.annotations annotation.id annotation }
  | .rotate_page _ _ pageIndex _ previousRotation =>
    { s with pageRotations := recSet s.pageRotations pageIndex previousRotation }
  | .delete_page _ _ pageIndex =>
    { s with
      deletedPages := setDelete s.deletedPages pageIndex
      pageOrder := spliceInsert pageIndex pageIndex s.pageOrder }
  | .reorder_pages _ _ fromIndex toIndex =>
    { s with pageOrder := jsMove toIndex fromIndex s.pageOrder }

/-- `undo`: pop the last operation off `undoStack`, apply its inverse
mutation, push it onto `redoStack`. -/
def undo (s : EditorState) : EditorState :=
  match s.undoStack.getLast? with
  | none => s
  | some operation =>
    { undoOp operation s with
      undoStack := s.undoStack.dropLast
      redoStack := s.redoStack ++ [operation] }

/-- The model mutation performed by `redo`'s `switch`. -/
def redoOp (operation : Operation) (s : EditorState) : EditorState :=
  match operation with
  | Operation.add_annotation _ _ annotation =>
    { s with annotations := mapSet s.annotations annotation.id annotation }
  | Operation.update_annotation _ _ annotationId changes _ =>
    match mapGet s.annotations annotationId with
    | some existing =>
      { s with annotations :=
          mapSet s.annotations annotationId (applyPatch existing changes) }
    | none => s
  | Operation.delete_annotation _ _ annotation =>
    { s with annotations := mapDelete s.annotations annotation.id }
  | .rotate_page _ _ pageIndex rotation _ =>
    let newRotation := Int.tmod (recGet s.pageRotations pageIndex + rotation) 360
    { s with pageRotations := recSet s.pageRotations pageIndex newRotation }
  | .delete_page _ _ pageIndex =>
    { s with
      deletedPages := setAdd s.deletedPages pageIndex
      pageOrder := s.pageOrder.filter fun i => ¬ i = pageIndex }
  | .reorder_pages _ _ fromIndex toIndex =>
    { s with pageOrder := jsMove fromIndex toIndex s.pageOrder }

/-- `redo`: pop the last undone operation off `redoStack`, re-apply its
forward mutation, push it back onto `undoStack`. -/
def redo (s : EditorState) : EditorState :=
  match s.redoStack.getLast? with
  | none => s
  | some operation =>
    { redoOp operation s with
      undoStack := s.undoStack ++ [operation]
      redoStack := s.redoStack.dropLast }

/-! ## Model projection and reachability -/

/-- The model the undo/redo claims quantify over: annotations (as the map
the store queries, keyed by id), per-page rotation (as read everywhere in
the source, i.e. `pageRotations[p] || 0`), the deleted-page set (as a
membership predicate — JS `Set` equality is order-insensitive) and the
display order. -/
@[ext]
structure Model where
  annotations : String → Option Annotation
  pageRotations : Nat → Int
  deletedPages : Nat → Bool
  pageOrder : List Nat

/-- Project an editor state onto its model. -/
def modelOf (s : EditorState) : Model where
  annotations := mapGet s.annotations
  pageRotations := recGet s.pageRotations
  deletedPages := fun p => p ∈ s.deletedPages
  pageOrder := s.pageOrder

/-- One public mutator invocation (the arguments of the call). -/
inductive MutCall where
  | add ( annotation : Annotation)
  | update (id : String) (changes : AnnotationPatch)
  | delAnn (id : String)
  | rotate (pageIndex : Nat) (degrees : Int)
  | delPage (pageIndex : Nat)
  | reorder (fromIndex toIndex : Nat)
deriving DecidableEq, Repr

/-- Dispatch a `MutCall` to the corresponding store mutator. -/
def applyCall (c : MutCall) (opId : String) (now : Nat)
    (s : EditorState) : EditorState :=
  match c with
  | .add a => addAnnotation a opId now s
  | .update id ch => updateAnnotation id ch opId now s
  | .delAnn id => deleteAnnotation id opId now s
  | .rotate p d => rotatePage p d opId now s
  | .delPage p => deletePage p opId now s
  | .reorder f t => reorderPages f t opId now s

/-- Validity of a mutator call at a state: the call refers to entities that
exist (an existing annotation id, a displayed page, in-range reorder
indices, a fresh id for `add`), as every UI call site does.  For `update`,
`changes` must not itself contain the `updatedAt` key (the store overwrites
that key with the clock on apply, so a patch naming it can be neither undone
nor redone faithfully). -/
def ValidCall (c : MutCall) (s : EditorState) : Prop :=
  match c with
  | .add a => mapGet s.annotations a.id = none
  | .update id ch => (mapGet s.annotations id).isSome ∧ ch.updatedAt = none
  | .delAnn id => (mapGet s.annotations id).isSome
  | .rotate _ _ => True
  | .delPage p => p ∈ s.pageOrder ∧ ¬ p ∈ s.deletedPages ∧ 1 < s.pageOrder.length
  | .reorder f t => f < s.pageOrder.length ∧ t < s.pageOrder.length

/-- Structural well-formedness every store-produced state enjoys: the
annotation map and the display order carry no duplicate keys/pages, and
every annotation is stored under its own id. -/
def Wf (s : EditorState) : Prop :=
  (s.annotations.map Prod.fst).Nodup ∧ s.pageOrder.Nodup ∧
    ∀ e ∈ s.annotations, e.2.id = e.1

/-- Agreement of two states on everything `undo` reads or the model
observes: the undo stack, the page structure, and the annotation map and
rotation record as lookup functions.  (`operations` and `redoStack` are
deliberately left free: they are exactly the fields a pop-after-push pair
does not restore.) -/
structure EquivSt (s t : EditorState) : Prop where
  numPages : s.numPages = t.numPages
  rotations : ∀ p, recGet s.pageRotations p = recGet t.pageRotations p
  deleted : s.deletedPages = t.deletedPages
  order : s.pageOrder = t.pageOrder
  annotations : ∀ k, mapGet s.annotations k = mapGet t.annotations k
  undoStack : s.undoStack = t.undoStack
  currentPage : s.currentPage = t.currentPage

/-- Call kinds whose undo is an exact model inverse: everything except
`delete_page` (whose undo re-inserts at the wrong position) and
`update_annotation` (whose undo cannot restore the clock-stamped
`updatedAt`). -/
def ExactKind : MutCall → Prop
  | .delPage _ => False
  | .update _ _ => False
  | _ => True

/-- Apply a list of mutator calls (each with its `generateId`/`Date.now`
values) in order. -/
def applySeq (calls : List (MutCall × String × Nat)) (s : EditorState) :
    EditorState :=
  calls.foldl (fun t c => applyCall c.1 c.2.1 c.2.2 t) s

/-- Validity of each call at the state it is applied to. -/
def SeqValid (s : EditorState) : List (MutCall × String × Nat) → Prop
  | [] => True
  | c :: rest => ValidCall c.1 s ∧ SeqValid (applyCall c.1 c.2.1 c.2.2 s) rest

/-- Iterate `undo`. -/
def undoN : Nat → EditorState → EditorState
  | 0, s => s
  | n + 1, s => undoN n (undo s)

/-- One step of the public operation surface: a valid mutator call, or
`undo`, or `redo`. -/
inductive Step : EditorState → EditorState → Prop where
  | call (c : MutCall) (opId : String) (now : Nat) (s : EditorState)
      (hv : ValidCall c s) : Step s (applyCall c opId now s)
  | undo (s : EditorState) : Step s (undo s)
  | redo (s : EditorState) : Step s (redo s)

/-- States reachable from a freshly loaded `numPages`-page document through
valid mutator calls, undos and redos. -/
def Reachable (numPages : Nat) (s : EditorState) : Prop :=
  Relation.ReflTransGen Step (loadDocument numPages) s

/-- The `delete_page` payload of an operation, when it is one. -/
def delPageIndex? : Operation → Option Nat
  | .delete_page _ _ p => some p
  | _ => none

/-- Bounds needed to pop a stack from the top whose length bookkeeping
matches the current display-order length: every `reorder_pages` entry's two
indices are within the display-order length as it will be when that entry is
popped by `undo` (each `delete_page` popped before it restores one page).
The list argument is the stack read top-first. -/
def stackBoundsUndo : List Operation → Nat → Prop
  | [], _ => True
  | .delete_page _ _ _ :: rest, len => stackBoundsUndo rest (len + 1)
  | .reorder_pages _ _ f t :: rest, len =>
    f < len ∧ t < len ∧ stackBoundsUndo rest len
  | _ :: rest, len => stackBoundsUndo rest len

/-- Same bookkeeping for the redo stack: each `delete_page` popped by `redo`
removes one page. The list argument is the stack read top-first. -/
def stackBoundsRedo : List Operation → Nat → Prop
  | [], _ => True
  | .delete_page _ _ _ :: rest, len => stackBoundsRedo rest (len - 1)
  | .reorder_pages _ _ f t :: rest, len =>
    f < len ∧ t < len ∧ stackBoundsRedo rest len
  | _ :: rest, len => stackBoundsRedo rest len

/-- The inductive invariant of reachable states.  `order_mem`/`order_nodup`/
`deleted_nodup`/`deleted_lt` are the spec's structural invariant; the stack
fields say just enough about pending operations for `undo`/`redo` to
preserve it. -/
structure Inv (s : EditorState) : Prop where
  order_nodup : s.pageOrder.Nodup
  order_mem : ∀ i, i ∈ s.pageOrder ↔ i < s.numPages ∧ ¬ i ∈ s.deletedPages
  deleted_nodup : s.deletedPages.Nodup
  deleted_lt : ∀ p ∈ s.deletedPages, p < s.numPages
  undo_del : ∀ op ∈ s.undoStack, ∀ p, delPageIndex? op = some p →
    p ∈ s.deletedPages
  redo_del : ∀ op ∈ s.redoStack, ∀ p, delPageIndex? op = some p →
    p < s.numPages ∧ ¬ p ∈ s.deletedPages
  undo_del_nodup : (s.undoStack.filterMap delPageIndex?).Nodup
  redo_del_nodup : (s.redoStack.filterMap delPageIndex?).Nodup
  undo_bounds : stackBoundsUndo s.undoStack.reverse s.pageOrder.length
  redo_bounds : stackBoundsRedo s.redoStack.reverse s.pageOrder.length

/-! ## The export compositor (`export.ts`)

The pdf-lib document is abstracted to the list of its pages; a page is
represented by its original index together with the net rotation the export
has applied to it (the source adds the stored delta to the page's current
rotation; the original file's intrinsic rotation is an opaque baseline and
is represented as `0`).  Drawing reduces to the pairs
`(output page index, annotation)` the dispatch loop emits, plus the colour
each `draw*` helper computes with `hexToRgb(style.color)`. -/

/-- Insertion sort step, descending. -/
def insertDesc (x : Nat) : List Nat → List Nat
  | [] => [x]
  | y :: ys => if y ≤ x then x :: y :: ys else y :: insertDesc x ys

/-- `Array.from(set).sort((a, b) => b - a)`: descending order. -/
def sortDescNat (l : List Nat) : List Nat :=
  l.foldr insertDesc []

/-- Insertion sort step for rotation entries, ascending by key. -/
def insertAscPair (x : Nat × Int) : List (Nat × Int) → List (Nat × Int)
  | [] => [x]
  | y :: ys => if x.1 ≤ y.1 then x :: y :: ys else y :: insertAscPair x ys

/-- `Object.entries(pageRotations)`: JS enumerates integer-like keys in
ascending numeric order. -/
def entriesAsc (r : List (Nat × Int)) : List (Nat × Int) :=
  r.foldr insertAscPair []

/-- The deletion loop: `pdfDoc.removePage(pageIndex)` for each deleted index
in descending order, guarded by `pageIndex < pages.length` against the
pre-deletion page count (the captured `pages` array).  `removePage` removes
the page at the given position of the current document. -/
def removePagesLoop (pages : List Nat) (toDelete : List Nat) : List Nat :=
  toDelete.foldl (fun acc i => acc.take i ++ acc.drop (i + 1)) pages

/-- Pages remaining after the deletion phase, each paired with rotation 0
(`remainingPages` in the source, before the rotation loop). -/
def remainingAfterDeletion (numPages : Nat) (deletedPages : List Nat) : List Nat :=
  removePagesLoop (List.range numPages)
    (sortDescNat (deletedPages.filter fun i => i < numPages))

/-- The rotation loop: for each `(idx, rotation)` entry, if `idx <
remainingPages.length && rotation !== 0`, add `rotation` to the rotation of
the page at position `idx` of the post-deletion page list. -/
def applyRotationsLoop (pages : List (Nat × Int)) (rots : List (Nat × Int)) :
    List (Nat × Int) :=
  rots.foldl
    (fun acc e =>
      if e.1 < acc.length ∧ ¬ e.2 = 0 then
        acc.modify (fun pr => (pr.1, pr.2 + e.2)) e.1
      else acc)
    pages

/-- Insertion sort step, ascending. -/
def insertAsc (x : Nat) : List Nat → List Nat
  | [] => [x]
  | y :: ys => if x ≤ y then x :: y :: ys else y :: insertAsc x ys

/-- `Array.from(set).sort((a, b) => a - b)`: ascending order. -/
def sortAscNat (l : List Nat) : List Nat :=
  l.foldr insertAsc []

/-- The annotation-index adjustment loop: starting from `pageIndex`,
decrement once for every deleted index (ascending) smaller than it. -/
def adjustedIndexOf (deletedPages : List Nat) (pageIndex : Nat) : Int :=
  (sortAscNat deletedPages).foldl
    (fun acc d => if d < pageIndex then acc - 1 else acc) (pageIndex : Int)

/-- The colour every `draw*` helper passes to pdf-lib:
`hexToRgb( annotation.style.color)`. -/
def annotationDrawColor (a : Annotation) : ℚ × ℚ × ℚ :=
  hexToRgb a.style.color

/-- The drawing dispatch loop: skip annotations on deleted pages, adjust the
page index for deletions, skip out-of-range results, and otherwise draw the
annotation on the page at the adjusted position. -/
def drawTargets (annotations : List Annotation) (deletedPages : List Nat)
    (remainingCount : Nat) : List (Nat × Annotation) :=
  annotations.filterMap fun a =>
    if a.pageIndex ∈ deletedPages then none
    else
      let adjustedIndex := adjustedIndexOf deletedPages a.pageIndex
      if adjustedIndex < 0 ∨ remainingCount ≤ adjustedIndex then none
      else some (adjustedIndex.toNat, a)

/-- `exportPDF`: the page list of the emitted document, as
`(original index, applied rotation)` pairs in output order, together with
the draw targets.  The source destructures only `pdfData`, `annotations`,
`pageRotations` and `deletedPages` from its options — `pageOrder` is
accepted but never read ("For MVP, we skip reordering in export"). -/
def exportPDF (numPages : Nat) (annotations : List Annotation)
    (pageRotations : List (Nat × Int)) (pageOrder : List Nat)
    (deletedPages : List Nat) :
    List (Nat × Int) × List (Nat × Annotation) :=
  let _ := pageOrder
  let remaining := remainingAfterDeletion numPages deletedPages
  let pages := applyRotationsLoop (remaining.map fun o => (o, 0))
    (entriesAsc pageRotations)
  (pages, drawTargets annotations deletedPages remaining.length)

/-- A concrete annotation fixture (a well-coloured highlight on page 2)
used to instantiate concrete states. -/
def fixtureHighlight : Annotation where
  id := "a1"
  type := AnnotationType.highlight
  pageIndex := 2
  style := { color := "#ff0000", opacity := 1 }
  createdAt := 0
  updatedAt := 0

/-- A concrete annotation fixture whose colour string `"red"` does not match
`hexToRgb`'s regex. -/
def fixtureBadColor : Annotation where
  id := "a2"
  type := AnnotationType.note
  pageIndex := 1
  style := { color := "red", opacity := 1 }
  createdAt := 0
  updatedAt := 0

/-! # Theorems

First the association-list / splice toolbox, then the claims. -/

section AssocLemmas

variable {α β : Type} [DecidableEq α]

/-- Replacing all entries keyed `k` does not change what a search for a
different key `k'` finds. -/
theorem find?_replace_ne (m : List (α × β)) (k k' : α) (v : β)
    (h : ¬ k' = k) :
    (m.map fun e => if e.1 = k then (k, v) else e).find? (fun e => e.1 = k') =
      m.find? fun e => e.1 = k' := by
  induction m with
  | nil => rfl
  | cons e rest ih =>
    by_cases he : e.1 = k
    · rw [List.map_cons, if_pos he,
        List.find?_cons_of_neg _ (by simpa using fun hh : k = k' => h hh.symm),
        List.find?_cons_of_neg _
          (by simp only [he, decide_eq_true_eq]; exact fun hh => h hh.symm),
        ih]
    · by_cases he' : e.1 = k'
      · rw [List.map_cons, if_neg he, List.find?_cons_of_pos _ (by simpa using he'),
          List.find?_cons_of_pos _ (by simpa using he')]
      · rw [List.map_cons, if_neg he, List.find?_cons_of_neg _ (by simpa using he'),
          List.find?_cons_of_neg _ (by simpa using he'), ih]

/-- Searching for `k` after replacing all entries keyed `k` by `(k, v)`
yields `(k, v)` exactly when some entry was keyed `k`. -/
theorem find?_replace_self (m : List (α × β)) (k : α) (v : β)
    (h : m.any fun e => e.1 = k) :
    (m.map fun e => if e.1 = k then (k, v) else e).find? (fun e => e.1 = k) =
      some (k, v) := by
  induction m with
  | nil => simp at h
  | cons e rest ih =>
    by_cases he : e.1 = k
    · rw [List.map_cons, if_pos he, List.find?_cons_of_pos _ (by simp)]
    · rw [List.map_cons, if_neg he, List.find?_cons_of_neg _ (by simpa using he)]
      rw [List.any_cons] at h
      exact ih (by simpa [he] using h)

/-- When no entry matches, `find?` over the list is `none`. -/
theorem find?_eq_none_of_not_any (m : List (α × β)) (k : α)
    (h : ¬ m.any fun e => e.1 = k) :
    m.find? (fun e => e.1 = k) = none := by
  rw [List.find?_eq_none]
  intro e he
  rw [List.any_eq_true] at h
  push_neg at h
  simpa using h e he

end AssocLemmas

theorem mapGet_mapSet_self (m : List (String × Annotation)) (k : String)
    (v : Annotation) : mapGet (mapSet m k v) k = some v := by
  unfold mapGet mapSet
  by_cases h : m.any fun e => e.1 = k
  · rw [if_pos h, find?_replace_self m k v h]
    rfl
  · rw [if_neg h, List.find?_append, find?_eq_none_of_not_any m k h]
    simp

theorem mapGet_mapSet_ne (m : List (String × Annotation)) (k k' : String)
    (v : Annotation) (h : ¬ k' = k) :
    mapGet (mapSet m k v) k' = mapGet m k' := by
  unfold mapGet mapSet
  by_cases ha : m.any fun e => e.1 = k
  · rw [if_pos ha, find?_replace_ne m k k' v h]
  · rw [if_neg ha, List.find?_append]
    have hk : List.find? (fun e => e.1 = k') [(k, v)] = none := by
      simp only [List.find?_singleton]
      rw [if_neg (by simpa using fun hh => h hh.symm)]
    rw [hk]
    cases m.find? fun e => e.1 = k' <;> rfl

theorem mapGet_mapDelete_self (m : List (String × Annotation)) (k : String) :
    mapGet (mapDelete m k) k = none := by
  unfold mapGet mapDelete
  have : (m.filter fun e => ¬ e.1 = k).find? (fun e => e.1 = k) = none := by
    rw [List.find?_eq_none]
    intro e he
    have := List.of_mem_filter he
    simpa using this
  rw [this]
  rfl

theorem mapGet_mapDelete_ne (m : List (String × Annotation)) (k k' : String)
    (h : ¬ k' = k) : mapGet (mapDelete m k) k' = mapGet m k' := by
  unfold mapGet mapDelete
  congr 1
  induction m with
  | nil => rfl
  | cons e rest ih =>
    by_cases he : e.1 = k
    · rw [List.filter_cons_of_neg (by simpa using he),
        List.find?_cons_of_neg _
          (by simp only [he, decide_eq_true_eq]; exact fun hh => h hh.symm),
        ih]
    · by_cases he' : e.1 = k'
      · rw [List.filter_cons_of_pos (by simpa using he),
          List.find?_cons_of_pos _ (by simpa using he'),
          List.find?_cons_of_pos _ (by simpa using he')]
      · rw [List.filter_cons_of_pos (by simpa using he),
          List.find?_cons_of_neg _ (by simpa using he'),
          List.find?_cons_of_neg _ (by simpa using he'), ih]

theorem mapDelete_mapSet_fresh (m : List (String × Annotation)) (k : String)
    (v : Annotation) (h : mapGet m k = none) :
    mapDelete (mapSet m k v) k = m := by
  unfold mapGet at h
  have hnone : m.find? (fun e => e.1 = k) = none := by
    cases hf : m.find? fun e => e.1 = k
    · rfl
    · rw [hf] at h; simp at h
  have hmem : ∀ e ∈ m, ¬ (e.1 = k) := by
    intro e he
    have := List.find?_eq_none.mp hnone e he
    simpa using this
  have hany : ¬ m.any fun e => e.1 = k := by
    rw [List.any_eq_true]
    push_neg
    intro e he
    simpa using hmem e he
  unfold mapSet mapDelete
  rw [if_neg hany, List.filter_append]
  have h1 : m.filter (fun e => ¬ e.1 = k) = m :=
    List.filter_eq_self.mpr fun e he => by simpa using hmem e he
  have h2 : List.filter (fun e => ¬ e.1 = k) [(k, v)] = [] := by simp
  rw [h1, h2, List.append_nil]

theorem recGet_recSet_self (r : List (Nat × Int)) (k : Nat) (v : Int) :
    recGet (recSet r k v) k = v := by
  unfold recGet recSet
  by_cases h : r.any fun e => e.1 = k
  · rw [if_pos h, find?_replace_self r k v h]
    rfl
  · rw [if_neg h, List.find?_append, find?_eq_none_of_not_any r k h]
    simp

theorem recGet_recSet_ne (r : List (Nat × Int)) (k k' : Nat) (v : Int)
    (h : ¬ k' = k) : recGet (recSet r k v) k' = recGet r k' := by
  unfold recGet recSet
  by_cases ha : r.any fun e => e.1 = k
  · rw [if_pos ha, find?_replace_ne r k k' v h]
  · rw [if_neg ha, List.find?_append]
    have hk : List.find? (fun e => e.1 = k') [(k, v)] = none := by
      simp only [List.find?_singleton]
      rw [if_neg (by simpa using fun hh => h hh.symm)]
    rw [hk]
    cases r.find? fun e => e.1 = k' <;> rfl

theorem setDelete_setAdd (s : List Nat) (x : Nat) (h : ¬ x ∈ s) :
    setDelete (setAdd s x) x = s := by
  unfold setAdd setDelete
  rw [if_neg h, List.erase_append_right _ h]
  simp

theorem mem_setAdd (s : List Nat) (x y : Nat) :
    y ∈ setAdd s x ↔ y ∈ s ∨ y = x := by
  unfold setAdd
  by_cases h : x ∈ s
  · simp only [if_pos h]
    constructor
    · exact Or.inl
    · rintro (hy | rfl) <;> assumption
  · simp [if_neg h]

theorem setAdd_nodup (s : List Nat) (x : Nat) (h : s.Nodup) :
    (setAdd s x).Nodup := by
  unfold setAdd
  by_cases hx : x ∈ s
  · simpa [hx]
  · rw [if_neg hx]
    simpa [List.nodup_append] using ⟨h, hx⟩

theorem mem_setDelete (s : List Nat) (x y : Nat) (h : s.Nodup) :
    y ∈ setDelete s x ↔ y ∈ s ∧ ¬ y = x := by
  unfold setDelete
  rw [h.mem_erase_iff]
  tauto

theorem setDelete_nodup (s : List Nat) (x : Nat) (h : s.Nodup) :
    (setDelete s x).Nodup := h.erase x

theorem spliceInsert_perm (i x : Nat) (l : List Nat) :
    List.Perm (spliceInsert i x l) (x :: l) := by
  unfold spliceInsert
  have h1 : l.take i ++ [x] ++ l.drop i = l.take i ++ x :: l.drop i := by simp
  have h2 : List.Perm (l.take i ++ x :: l.drop i) (x :: (l.take i ++ l.drop i)) :=
    List.perm_middle
  rw [h1]
  exact h2.trans (by rw [List.take_append_drop])

theorem length_spliceInsert (i x : Nat) (l : List Nat) :
    (spliceInsert i x l).length = l.length + 1 := by
  simpa using (spliceInsert_perm i x l).length_eq

theorem mem_spliceInsert (i x y : Nat) (l : List Nat) :
    y ∈ spliceInsert i x l ↔ y = x ∨ y ∈ l := by
  rw [(spliceInsert_perm i x l).mem_iff, List.mem_cons]

theorem spliceInsert_nodup (i x : Nat) (l : List Nat) (hl : l.Nodup)
    (hx : ¬ x ∈ l) : (spliceInsert i x l).Nodup := by
  rw [(spliceInsert_perm i x l).nodup_iff]
  simpa using ⟨hx, hl⟩

theorem filter_spliceInsert_self (i x : Nat) (l : List Nat) :
    (spliceInsert i x l).filter (fun j => ¬ j = x) =
      l.filter fun j => ¬ j = x := by
  unfold spliceInsert
  rw [List.filter_append, List.filter_append]
  have : List.filter (fun j => ¬ j = x) [x] = [] := by simp
  rw [this, List.append_nil, ← List.filter_append, List.take_append_drop]

/-! ## Claim C8 — guards on missing annotation ids -/

/-- C8: for every id not present in the annotations map, `updateAnnotation`
and `deleteAnnotation` leave the store state completely unchanged — in
particular the model, `operations`, `undoStack` and `redoStack` — and,
being total functions, do not throw. -/
theorem claim_C8_missing_id_noop (s : EditorState) (id opId : String)
    (changes : AnnotationPatch) (now : Nat)
    (h : mapGet s.annotations id = none) :
    updateAnnotation id changes opId now s = s ∧
      deleteAnnotation id opId now s = s := by
  constructor
  · unfold updateAnnotation
    rw [h]
  · unfold deleteAnnotation
    rw [h]

/-- Witness for C8 at a concrete input: id `"x"` is absent from a freshly
loaded document, and both mutators leave the state untouched. -/
theorem claim_C8_missing_id_noop_witness :
    mapGet (loadDocument 1).annotations "x" = none ∧
      updateAnnotation "x" {} "op" 0 (loadDocument 1) = loadDocument 1 ∧
      deleteAnnotation "x" "op" 0 (loadDocument 1) = loadDocument 1 :=
  ⟨rfl, (claim_C8_missing_id_noop (loadDocument 1) "x" "op" {} 0 rfl).1,
    (claim_C8_missing_id_noop (loadDocument 1) "x" "op" {} 0 rfl).2⟩

/-! ## Claim C7 — deleting the last displayed page -/

/-- C7 (amended): attempting `deletePage` when the display order contains
exactly one page leaves the *entire* store state unchanged (model,
operation log, undo and redo stacks) and does not throw — but the rejection
is silent: the mutator returns void, so this total no-op is all the caller
observes, and no validation failure is surfaced. -/
theorem claim_C7_delete_last_page_silent_noop (s : EditorState) (p : Nat)
    (opId : String) (now : Nat) (h : s.pageOrder.length = 1) :
    deletePage p opId now s = s := by
  unfold deletePage
  rw [if_pos (by omega)]

/-- Witness for C7 (amended) at a concrete input. -/
theorem claim_C7_delete_last_page_silent_noop_witness :
    (loadDocument 1).pageOrder.length = 1 ∧
      deletePage 0 "op" 5 (loadDocument 1) = loadDocument 1 :=
  ⟨rfl, claim_C7_delete_last_page_silent_noop (loadDocument 1) 0 "op" 5 rfl⟩

/-- C7 counterexample: on a one-page document the rejected `deletePage` call
is observably identical to not calling the mutator at all — the source
function returns `void` and every component of the store state is unchanged
(the equality below is full state equality, covering the model, `operations`,
`undoStack` and `redoStack`).  Nothing distinguishable from silent success
reaches the caller, refuting the claim's "surfaces a validation failure to
the caller rather than succeeding silently". -/
theorem claim_C7_counterexample :
    deletePage 0 "op7" 5 (loadDocument 1) = loadDocument 1 ∧
      (deletePage 0 "op7" 5 (loadDocument 1)).operations = [] ∧
      (deletePage 0 "op7" 5 (loadDocument 1)).undoStack = [] := by
  refine ⟨?_, rfl, rfl⟩
  rfl

/-! ## Claim C5 — rotation normalization -/

/-- C5 counterexample: `rotatePage` with a negative delta.  On a fresh
document, `rotatePage(0, -90)` stores `(0 + -90) % 360 = -90` (JS `%` is the
truncated remainder), which is not in `[0, 360)` and differs from the
claim's normalization formula `(((prev + delta) % 360) + 360) % 360 = 270`. -/
theorem claim_C5_counterexample :
    recGet (rotatePage 0 (-90) "op5" 0 (loadDocument 1)).pageRotations 0 = -90 ∧
      ¬ (0 ≤ (-90 : Int) ∧ (-90 : Int) < 360) ∧
      Int.tmod (Int.tmod ((0 : Int) + -90) 360 + 360) 360 = 270 := by
  refine ⟨?_, by decide, by decide⟩
  rfl

/-- C5 (amended): the rotation stored by `rotatePage` (and recomputed by a
`redo` of a `rotate_page` operation) is the truncated remainder
`(prev + delta) % 360`, which lies in `(-360, 360)`; whenever
`prev + delta ≥ 0` — in particular for the nonnegative deltas the UI issues
— it coincides with the claim's normalization
`(((prev + delta) % 360) + 360) % 360` and lies in `[0, 360)`.  For negative
`prev + delta` the stored value is negative, not normalized. -/
theorem claim_C5_rotation_truncated_mod (s : EditorState) (p : Nat) (d : Int)
    (opId : String) (now : Nat) :
    (recGet (rotatePage p d opId now s).pageRotations p =
        Int.tmod (recGet s.pageRotations p + d) 360 ∧
      (0 ≤ recGet s.pageRotations p + d →
        recGet (rotatePage p d opId now s).pageRotations p =
            Int.tmod (Int.tmod (recGet s.pageRotations p + d) 360 + 360) 360 ∧
          0 ≤ recGet (rotatePage p d opId now s).pageRotations p ∧
          recGet (rotatePage p d opId now s).pageRotations p < 360)) ∧
    (∀ oid ts rot prevR rest,
      s.redoStack = rest ++ [Operation.rotate_page oid ts p rot prevR] →
      recGet (redo s).pageRotations p =
          Int.tmod (recGet s.pageRotations p + rot) 360 ∧
        (0 ≤ recGet s.pageRotations p + rot →
          0 ≤ recGet (redo s).pageRotations p ∧
            recGet (redo s).pageRotations p < 360)) := by
  have store : recGet (rotatePage p d opId now s).pageRotations p =
      Int.tmod (recGet s.pageRotations p + d) 360 := by
    unfold rotatePage
    exact recGet_recSet_self _ _ _
  have norm : ∀ x : Int, 0 ≤ x →
      Int.tmod x 360 = Int.tmod (Int.tmod x 360 + 360) 360 ∧
        0 ≤ Int.tmod x 360 ∧ Int.tmod x 360 < 360 := by
    intro x hx
    have h1 : Int.tmod x 360 = x % 360 := Int.tmod_eq_emod hx (by norm_num)
    have h2 : 0 ≤ x % 360 := Int.emod_nonneg x (by norm_num)
    have h3 : x % 360 < 360 := Int.emod_lt_of_pos x (by norm_num)
    have h4 : Int.tmod (x % 360 + 360) 360 = (x % 360 + 360) % 360 :=
      Int.tmod_eq_emod (by omega) (by norm_num)
    constructor
    · rw [h1, h4]
      omega
    · rw [h1]
      exact ⟨h2, h3⟩
  refine ⟨⟨store, ?_⟩, ?_⟩
  · intro hnn
    rw [store]
    have := norm _ hnn
    exact ⟨this.1, this.2.1, this.2.2⟩
  · intro oid ts rot prevR rest hredo
    have hpop : s.redoStack.getLast? =
        some (Operation.rotate_page oid ts p rot prevR) := by
      rw [hredo, List.getLast?_append]
      rfl
    have hr : recGet (redo s).pageRotations p =
        Int.tmod (recGet s.pageRotations p + rot) 360 := by
      unfold redo
      rw [hpop]
      exact recGet_recSet_self _ _ _
    refine ⟨hr, fun hnn => ?_⟩
    rw [hr]
    have := norm _ hnn
    exact ⟨this.2.1, this.2.2⟩

/-- Witness for C5 (amended) at a concrete input: `rotatePage(0, 90)` twice
on a fresh document and a redo after an undo. -/
theorem claim_C5_rotation_truncated_mod_witness :
    recGet (rotatePage 0 90 "a" 0 (loadDocument 2)).pageRotations 0 =
        Int.tmod (recGet (loadDocument 2).pageRotations 0 + 90) 360 ∧
      (recGet (undo (rotatePage 0 90 "a" 0 (loadDocument 2))).pageRotations 0 + 90 ≥ 0) ∧
      recGet (redo (undo (rotatePage 0 90 "a" 0 (loadDocument 2)))).pageRotations 0 =
        Int.tmod
          (recGet (undo (rotatePage 0 90 "a" 0 (loadDocument 2))).pageRotations 0 + 90)
          360 := by
  refine ⟨(claim_C5_rotation_truncated_mod (loadDocument 2) 0 90 "a" 0).1.1,
    by decide, ?_⟩
  exact ((claim_C5_rotation_truncated_mod
    (undo (rotatePage 0 90 "a" 0 (loadDocument 2))) 0 90 "a" 0).2
      "a" 0 90 0 [] (by decide)).1

/-! ## Claim C2 — undo of `DeletePage` re-insertion position -/

/-- C2 (code bug): evaluation at the failing input.  On a 3-page document,
delete page 0 (display order becomes `[1, 2]`), then delete page 1 — which
sits at position 0 of the display order — leaving `[2]`.  Undoing splices
`1` back at array position `1` (`newOrder.splice(operation.pageIndex, 0,
operation.pageIndex)`), producing `[2, 1]` instead of restoring `[1, 2]`:
the source conflates the original-index space with display-order positions,
contradicting its own `// Insert back at the correct position` comment. -/
theorem claim_C2_counterexample_eval :
    (deletePage 0 "a" 1 (loadDocument 3)).pageOrder = [1, 2] ∧
      (deletePage 1 "b" 2 (deletePage 0 "a" 1 (loadDocument 3))).pageOrder = [2] ∧
      (undo (deletePage 1 "b" 2 (deletePage 0 "a" 1 (loadDocument 3)))).pageOrder =
        [2, 1] ∧
      (undo (deletePage 1 "b" 2 (deletePage 0 "a" 1 (loadDocument 3)))).deletedPages =
        [0] ∧
      ¬ (undo (deletePage 1 "b" 2 (deletePage 0 "a" 1 (loadDocument 3)))).pageOrder =
        [1, 2] := by
  refine ⟨rfl, rfl, rfl, rfl, by decide⟩

/-! ## Claim C3 — export page order and rotation targeting -/

/-- C3 (code bug): evaluation at failing inputs.  First: after
`reorderPages(0, 1)` on a 2-page document the display order is `[1, 0]`,
but the exported document's pages are the original pages in original order
`[0, 1]` — the export never reads `pageOrder` ("For MVP, we skip reordering
in export", acknowledged in the repository's own tracking notes).  Second:
with page 0 deleted and a stored rotation of 90° for original page 1, the
export applies the 90° at *post-deletion position 1*, i.e. to original page
2, leaving the surviving rotated page 1 untouched. -/
theorem claim_C3_counterexample_eval :
    (reorderPages 0 1 "r" 1 (loadDocument 2)).pageOrder = [1, 0] ∧
      (exportPDF 2 [] [] [1, 0] []).1.map Prod.fst = [0, 1] ∧
      ¬ ((exportPDF 2 [] [] [1, 0] []).1.map Prod.fst = [1, 0]) ∧
      (exportPDF 3 [] [(1, 90)] [1, 2] [0]).1 = [(1, 0), (2, 90)] := by
  refine ⟨rfl, rfl, by decide, rfl⟩

/-! ## Undo/redo round-trip machinery (claim C1) -/

theorem getD_map_const_getD {A : Type} (o : Option A) (x : A) :
    (o.map fun _ => x).getD (o.getD x) = x := by
  cases o <;> rfl

/-- Undoing an `update_annotation`: applying the `previousState` snapshot on
top of the updated annotation restores every original field except
`updatedAt`, which keeps the apply-time clock value (when `changes` does not
name `updatedAt`). -/
theorem undo_patch_eq (a : Annotation) (ch : AnnotationPatch) (now : Nat)
    (h : ch.updatedAt = none) :
    applyPatch (stampUpdatedAt (applyPatch a ch) now) (snapshotPatch a ch) =
      stampUpdatedAt a now := by
  ext <;> simp [applyPatch, snapshotPatch, stampUpdatedAt, h, getD_map_const_getD]

/-- Redoing an `update_annotation` after its undo reproduces the applied
annotation exactly (when `changes` does not name `updatedAt`). -/
theorem redo_patch_eq (a : Annotation) (ch : AnnotationPatch) (now : Nat)
    (h : ch.updatedAt = none) :
    applyPatch (stampUpdatedAt a now) ch =
      stampUpdatedAt (applyPatch a ch) now := by
  ext <;> simp [applyPatch, stampUpdatedAt, h]

theorem getLast?_concat_op (l : List Operation) (op : Operation) :
    (l ++ [op]).getLast? = some op := by
  simp

theorem mapGet_some_mem (m : List (String × Annotation)) (k : String)
    (v : Annotation) (h : mapGet m k = some v) : (k, v) ∈ m := by
  unfold mapGet at h
  cases hf : m.find? fun e => e.1 = k with
  | none => rw [hf] at h; simp at h
  | some e =>
    rw [hf] at h
    have hm := List.mem_of_find?_eq_some hf
    have hp := List.find?_some hf
    simp only [Option.map_some'] at h
    have h1 : e.1 = k := by simpa using hp
    have : e = (k, v) := by
      cases e
      simp_all
    rwa [this] at hm

/-- Shape of `undo` on a state whose undo stack ends in `op`. -/
theorem undo_push (t : EditorState) (us : List Operation) (op : Operation)
    (h : t.undoStack = us ++ [op]) :
    undo t = { undoOp op t with
      undoStack := us
      redoStack := t.redoStack ++ [op] } := by
  unfold undo
  rw [h]
  simp

/-- Shape of `redo` on a state whose redo stack ends in `op`. -/
theorem redo_push (t : EditorState) (rs : List Operation) (op : Operation)
    (h : t.redoStack = rs ++ [op]) :
    redo t = { redoOp op t with
      undoStack := t.undoStack ++ [op]
      redoStack := rs } := by
  unfold redo
  rw [h]
  simp

/-! ### `jsMove` algebra -/

theorem jsMove_of_lt (f t : Nat) (l : List Nat) (hf : f < l.length) :
    jsMove f t l =
      (l.take f ++ l.drop (f + 1)).take t ++ [l[f]] ++
        (l.take f ++ l.drop (f + 1)).drop t := by
  unfold jsMove
  rw [List.get?_eq_getElem?, List.getElem?_eq_getElem hf]

theorem length_take_append_drop_erase (f : Nat) (l : List Nat)
    (hf : f < l.length) :
    (l.take f ++ l.drop (f + 1)).length = l.length - 1 := by
  rw [List.length_append, List.length_take, List.length_drop]
  omega

theorem jsMove_length (f t : Nat) (l : List Nat) (hf : f < l.length) :
    (jsMove f t l).length = l.length := by
  rw [jsMove_of_lt f t l hf]
  have h := length_take_append_drop_erase f l hf
  simp only [List.length_append, List.length_take, List.length_drop,
    List.length_singleton] at *
  omega

theorem cons_take_append_drop (f : Nat) (l : List Nat) (hf : f < l.length) :
    l.take f ++ l[f] :: l.drop (f + 1) = l := by
  conv_rhs => rw [← List.take_append_drop f l]
  rw [List.drop_eq_getElem_cons hf]

theorem jsMove_perm (f t : Nat) (l : List Nat) (hf : f < l.length) :
    List.Perm (jsMove f t l) l := by
  rw [jsMove_of_lt f t l hf]
  have h1 : (l.take f ++ l.drop (f + 1)).take t ++ [l[f]] ++
      (l.take f ++ l.drop (f + 1)).drop t =
      (l.take f ++ l.drop (f + 1)).take t ++ l[f] ::
        (l.take f ++ l.drop (f + 1)).drop t := by simp
  rw [h1]
  refine List.Perm.trans List.perm_middle ?_
  rw [List.take_append_drop]
  refine List.Perm.trans (List.perm_middle).symm ?_
  rw [cons_take_append_drop f l hf]

theorem jsMove_jsMove (f t : Nat) (l : List Nat) (hf : f < l.length)
    (ht : t < l.length) : jsMove t f (jsMove f t l) = l := by
  have hel : (l.take f ++ l.drop (f + 1)).length = l.length - 1 :=
    length_take_append_drop_erase f l hf
  have htake : ((l.take f ++ l.drop (f + 1)).take t).length = t := by
    rw [List.length_take]
    omega
  have h1 : jsMove f t l =
      (l.take f ++ l.drop (f + 1)).take t ++ l[f] ::
        (l.take f ++ l.drop (f + 1)).drop t := by
    rw [jsMove_of_lt f t l hf]
    simp
  have hget : (jsMove f t l).get? t = some l[f] := by
    rw [h1, List.get?_eq_getElem?, List.getElem?_append_right (by omega), htake,
      Nat.sub_self]
    simp
  rw [jsMove, hget]
  show ((jsMove f t l).take t ++ (jsMove f t l).drop (t + 1)).take f ++ [l[f]] ++
      ((jsMove f t l).take t ++ (jsMove f t l).drop (t + 1)).drop f = l
  have hA : (jsMove f t l).take t = (l.take f ++ l.drop (f + 1)).take t := by
    rw [h1, List.take_left' htake]
  have hB : (jsMove f t l).drop (t + 1) = (l.take f ++ l.drop (f + 1)).drop t := by
    rw [h1]
    have hsplit : (l.take f ++ l.drop (f + 1)).take t ++ l[f] ::
        (l.take f ++ l.drop (f + 1)).drop t =
        ((l.take f ++ l.drop (f + 1)).take t ++ [l[f]]) ++
          (l.take f ++ l.drop (f + 1)).drop t := by simp
    rw [hsplit, List.drop_left' (by simp [htake])]
  rw [hA, hB, List.take_append_drop]
  have hF : (l.take f ++ l.drop (f + 1)).take f = l.take f :=
    List.take_left' (by rw [List.length_take]; omega)
  have hG : (l.take f ++ l.drop (f + 1)).drop f = l.drop (f + 1) :=
    List.drop_left' (by rw [List.length_take]; omega)
  rw [hF, hG]
  have hfin : l.take f ++ [l[f]] ++ l.drop (f + 1) =
      l.take f ++ l[f] :: l.drop (f + 1) := by simp
  rw [hfin, cons_take_append_drop f l hf]

/-! ### Per-operation round trips -/

theorem roundtrip_add (s : EditorState) (a : Annotation) (oid : String)
    (now : Nat) (hfresh : mapGet s.annotations a.id = none) :
    undo ( addAnnotation a oid now s) =
      { s with
        operations := s.operations ++ [ Operation.add_annotation oid now a]
        redoStack := [ Operation.add_annotation oid now a] } ∧
      redo (undo ( addAnnotation a oid now s)) = addAnnotation a oid now s := by
  have h1 : undo ( addAnnotation a oid now s) =
      { s with
        operations := s.operations ++ [ Operation.add_annotation oid now a]
        redoStack := [ Operation.add_annotation oid now a] } := by
    rw [undo_push ( addAnnotation a oid now s) s.undoStack
      ( Operation.add_annotation oid now a) rfl]
    simp only [undoOp, addAnnotation]
    rw [mapDelete_mapSet_fresh _ _ _ hfresh]
    simp
  refine ⟨h1, ?_⟩
  rw [h1, redo_push _ [] ( Operation.add_annotation oid now a) (by simp)]
  simp only [redoOp, addAnnotation]

theorem roundtrip_delAnn (s : EditorState) (id oid : String) (now : Nat)
    (ann : Annotation) (hsome : mapGet s.annotations id = some ann)
    (hid : ann.id = id) :
    deleteAnnotation id oid now s =
      { s with
        annotations := mapDelete s.annotations id
        operations := s.operations ++ [ Operation.delete_annotation oid now ann]
        undoStack := s.undoStack ++ [ Operation.delete_annotation oid now ann]
        redoStack := [] } ∧
      undo ( deleteAnnotation id oid now s) =
      { s with
        annotations := mapSet (mapDelete s.annotations id) id ann
        operations := s.operations ++ [ Operation.delete_annotation oid now ann]
        redoStack := [ Operation.delete_annotation oid now ann] } ∧
      redo (undo ( deleteAnnotation id oid now s)) =
        { s with
          annotations := mapDelete
            (mapSet (mapDelete s.annotations id) id ann) id
          operations := s.operations ++ [ Operation.delete_annotation oid now ann]
          undoStack := s.undoStack ++ [ Operation.delete_annotation oid now ann]
          redoStack := [] } := by
  have happly : deleteAnnotation id oid now s =
      { s with
        annotations := mapDelete s.annotations id
        operations := s.operations ++ [ Operation.delete_annotation oid now ann]
        undoStack := s.undoStack ++ [ Operation.delete_annotation oid now ann]
        redoStack := [] } := by
    simp only [ deleteAnnotation, hsome]
  have h1 : undo ( deleteAnnotation id oid now s) =
      { s with
        annotations := mapSet (mapDelete s.annotations id) id ann
        operations := s.operations ++ [ Operation.delete_annotation oid now ann]
        redoStack := [ Operation.delete_annotation oid now ann] } := by
    rw [happly,
      undo_push _ s.undoStack ( Operation.delete_annotation oid now ann) rfl]
    simp only [undoOp, hid]
    simp
  refine ⟨happly, h1, ?_⟩
  rw [h1, redo_push _ [] ( Operation.delete_annotation oid now ann) (by simp)]
  simp only [redoOp, hid]

theorem roundtrip_update (s : EditorState) (id oid : String) (now : Nat)
    (ch : AnnotationPatch) (orig : Annotation)
    (hsome : mapGet s.annotations id = some orig)
    (hupd : ch.updatedAt = none) :
    updateAnnotation id ch oid now s =
      { s with
        annotations := mapSet s.annotations id
          (stampUpdatedAt (applyPatch orig ch) now)
        operations := s.operations ++
          [ Operation.update_annotation oid now id ch (snapshotPatch orig ch)]
        undoStack := s.undoStack ++
          [ Operation.update_annotation oid now id ch (snapshotPatch orig ch)]
        redoStack := [] } ∧
      undo ( updateAnnotation id ch oid now s) =
      { s with
        annotations := mapSet
          (mapSet s.annotations id (stampUpdatedAt (applyPatch orig ch) now))
          id (stampUpdatedAt orig now)
        operations := s.operations ++
          [ Operation.update_annotation oid now id ch (snapshotPatch orig ch)]
        redoStack :=
          [ Operation.update_annotation oid now id ch (snapshotPatch orig ch)] } ∧
      redo (undo ( updateAnnotation id ch oid now s)) =
        { s with
          annotations := mapSet
            (mapSet
              (mapSet s.annotations id
                (stampUpdatedAt (applyPatch orig ch) now))
              id (stampUpdatedAt orig now))
            id (stampUpdatedAt (applyPatch orig ch) now)
          operations := s.operations ++
            [ Operation.update_annotation oid now id ch (snapshotPatch orig ch)]
          undoStack := s.undoStack ++
            [ Operation.update_annotation oid now id ch (snapshotPatch orig ch)]
          redoStack := [] } := by
  have happly : updateAnnotation id ch oid now s =
      { s with
        annotations := mapSet s.annotations id
          (stampUpdatedAt (applyPatch orig ch) now)
        operations := s.operations ++
          [ Operation.update_annotation oid now id ch (snapshotPatch orig ch)]
        undoStack := s.undoStack ++
          [ Operation.update_annotation oid now id ch (snapshotPatch orig ch)]
        redoStack := [] } := by
    simp only [ updateAnnotation, hsome]
  have h1 : undo ( updateAnnotation id ch oid now s) =
      { s with
        annotations := mapSet
          (mapSet s.annotations id (stampUpdatedAt (applyPatch orig ch) now))
          id (stampUpdatedAt orig now)
        operations := s.operations ++
          [ Operation.update_annotation oid now id ch (snapshotPatch orig ch)]
        redoStack :=
          [ Operation.update_annotation oid now id ch (snapshotPatch orig ch)] } := by
    rw [happly, undo_push _ s.undoStack
      ( Operation.update_annotation oid now id ch (snapshotPatch orig ch)) rfl]
    simp only [undoOp, mapGet_mapSet_self]
    rw [undo_patch_eq orig ch now hupd]
    simp
  refine ⟨happly, h1, ?_⟩
  rw [h1, redo_push _ []
    ( Operation.update_annotation oid now id ch (snapshotPatch orig ch)) (by simp)]
  simp only [redoOp, mapGet_mapSet_self]
  rw [redo_patch_eq orig ch now hupd]

theorem roundtrip_rotate (s : EditorState) (p : Nat) (d : Int) (oid : String)
    (now : Nat) :
    undo (rotatePage p d oid now s) =
      { s with
        pageRotations := recSet
          (recSet s.pageRotations p (Int.tmod (recGet s.pageRotations p + d) 360))
          p (recGet s.pageRotations p)
        operations := s.operations ++
          [Operation.rotate_page oid now p d (recGet s.pageRotations p)]
        redoStack :=
          [Operation.rotate_page oid now p d (recGet s.pageRotations p)] } ∧
      redo (undo (rotatePage p d oid now s)) =
        { s with
          pageRotations := recSet
            (recSet
              (recSet s.pageRotations p
                (Int.tmod (recGet s.pageRotations p + d) 360))
              p (recGet s.pageRotations p))
            p (Int.tmod (recGet s.pageRotations p + d) 360)
          operations := s.operations ++
            [Operation.rotate_page oid now p d (recGet s.pageRotations p)]
          undoStack := s.undoStack ++
            [Operation.rotate_page oid now p d (recGet s.pageRotations p)]
          redoStack := [] } := by
  have h1 : undo (rotatePage p d oid now s) =
      { s with
        pageRotations := recSet
          (recSet s.pageRotations p (Int.tmod (recGet s.pageRotations p + d) 360))
          p (recGet s.pageRotations p)
        operations := s.operations ++
          [Operation.rotate_page oid now p d (recGet s.pageRotations p)]
        redoStack :=
          [Operation.rotate_page oid now p d (recGet s.pageRotations p)] } := by
    rw [show rotatePage p d oid now s =
      { s with
        pageRotations := recSet s.pageRotations p
          (Int.tmod (recGet s.pageRotations p + d) 360)
        operations := s.operations ++
          [Operation.rotate_page oid now p d (recGet s.pageRotations p)]
        undoStack := s.undoStack ++
          [Operation.rotate_page oid now p d (recGet s.pageRotations p)]
        redoStack := [] } from rfl]
    rw [undo_push _ s.undoStack
      (Operation.rotate_page oid now p d (recGet s.pageRotations p)) rfl]
    simp only [undoOp]
    simp
  refine ⟨h1, ?_⟩
  rw [h1, redo_push _ []
    (Operation.rotate_page oid now p d (recGet s.pageRotations p)) (by simp)]
  simp only [redoOp]
  rw [recGet_recSet_self]

theorem roundtrip_delPage (s : EditorState) (p : Nat) (oid : String) (now : Nat)
    (hmem : p ∈ s.pageOrder) (hdel : ¬ p ∈ s.deletedPages)
    (hlen : 1 < s.pageOrder.length) :
    undo (deletePage p oid now s) =
      { s with
        deletedPages := s.deletedPages
        pageOrder := spliceInsert p p (s.pageOrder.filter fun i => ¬ i = p)
        currentPage :=
          min s.currentPage (s.pageOrder.filter fun i => ¬ i = p).length
        operations := s.operations ++ [Operation.delete_page oid now p]
        redoStack := [Operation.delete_page oid now p] } ∧
      redo (undo (deletePage p oid now s)) = deletePage p oid now s := by
  have happly : deletePage p oid now s =
      { s with
        deletedPages := setAdd s.deletedPages p
        pageOrder := s.pageOrder.filter fun i => ¬ i = p
        currentPage :=
          min s.currentPage (s.pageOrder.filter fun i => ¬ i = p).length
        operations := s.operations ++ [Operation.delete_page oid now p]
        undoStack := s.undoStack ++ [Operation.delete_page oid now p]
        redoStack := [] } := by
    simp only [deletePage, if_neg (by omega : ¬ s.pageOrder.length ≤ 1)]
  have h1 : undo (deletePage p oid now s) =
      { s with
        deletedPages := s.deletedPages
        pageOrder := spliceInsert p p (s.pageOrder.filter fun i => ¬ i = p)
        currentPage :=
          min s.currentPage (s.pageOrder.filter fun i => ¬ i = p).length
        operations := s.operations ++ [Operation.delete_page oid now p]
        redoStack := [Operation.delete_page oid now p] } := by
    rw [happly, undo_push _ s.undoStack (Operation.delete_page oid now p) rfl]
    simp only [undoOp]
    rw [setDelete_setAdd _ _ hdel]
    simp
  refine ⟨h1, ?_⟩
  rw [h1, redo_push _ [] (Operation.delete_page oid now p) (by simp), happly]
  simp only [redoOp]
  rw [filter_spliceInsert_self]
  have hff : ((s.pageOrder.filter fun i => ¬ i = p).filter fun i => ¬ i = p) =
      s.pageOrder.filter fun i => ¬ i = p := by
    rw [List.filter_filter]
    exact List.filter_congr fun a _ => by
      cases h : decide (¬ a = p) <;> simp_all
  rw [hff]

theorem roundtrip_reorder (s : EditorState) (f t : Nat) (oid : String)
    (now : Nat) (hf : f < s.pageOrder.length) (ht : t < s.pageOrder.length) :
    undo (reorderPages f t oid now s) =
      { s with
        operations := s.operations ++ [Operation.reorder_pages oid now f t]
        redoStack := [Operation.reorder_pages oid now f t] } ∧
      redo (undo (reorderPages f t oid now s)) = reorderPages f t oid now s := by
  have h1 : undo (reorderPages f t oid now s) =
      { s with
        operations := s.operations ++ [Operation.reorder_pages oid now f t]
        redoStack := [Operation.reorder_pages oid now f t] } := by
    rw [undo_push _ s.undoStack (Operation.reorder_pages oid now f t) rfl]
    simp only [undoOp, reorderPages]
    rw [jsMove_jsMove f t s.pageOrder hf ht]
    simp
  refine ⟨h1, ?_⟩
  rw [h1, redo_push _ [] (Operation.reorder_pages oid now f t) (by simp)]
  simp only [redoOp, reorderPages]

/-! ### State equivalence and sequences of operations -/

theorem equivSt_refl (s : EditorState) : EquivSt s s :=
  ⟨rfl, fun _ => rfl, rfl, rfl, fun _ => rfl, rfl, rfl⟩

theorem equivSt_trans {s t u : EditorState} (h1 : EquivSt s t)
    (h2 : EquivSt t u) : EquivSt s u :=
  ⟨h1.numPages.trans h2.numPages,
    fun p => (h1.rotations p).trans (h2.rotations p),
    h1.deleted.trans h2.deleted, h1.order.trans h2.order,
    fun k => (h1.annotations k).trans (h2.annotations k),
    h1.undoStack.trans h2.undoStack, h1.currentPage.trans h2.currentPage⟩

theorem modelOf_eq_of_equiv {s t : EditorState} (h : EquivSt s t) :
    modelOf s = modelOf t := by
  unfold modelOf
  ext1
  · exact funext h.annotations
  · exact funext h.rotations
  · exact funext fun p => by rw [h.deleted]
  · exact h.order

theorem filter_ne_eq_erase (l : List Nat) (p : Nat) (h : l.Nodup) :
    (l.filter fun i => ¬ i = p) = l.erase p := by
  rw [h.erase_eq_filter]
  exact List.filter_congr fun a _ => by
    by_cases hap : a = p <;> simp [hap]

theorem mapGet_none_keys (m : List (String × Annotation)) (k : String)
    (h : mapGet m k = none) : ¬ k ∈ m.map Prod.fst := by
  intro hk
  obtain ⟨e, he, hek⟩ := List.mem_map.mp hk
  unfold mapGet at h
  cases hf : m.find? fun e => e.1 = k with
  | some e' => rw [hf] at h; simp at h
  | none =>
    have := List.find?_eq_none.mp hf e he
    simp [hek] at this

/-- `Wf` is preserved by valid calls of the exactly-invertible kinds. -/
theorem wf_applyCall (c : MutCall) (oid : String) (now : Nat) (s : EditorState)
    (hwf : Wf s) (hv : ValidCall c s) (hex : ExactKind c) :
    Wf (applyCall c oid now s) := by
  obtain ⟨hkeys, horder, hcons⟩ := hwf
  cases c with
  | add a =>
    have hfresh : mapGet s.annotations a.id = none := hv
    have hnotmem := mapGet_none_keys s.annotations a.id hfresh
    have hany : ¬ s.annotations.any fun e => e.1 = a.id := by
      rw [List.any_eq_true]
      push_neg
      intro e he hh
      exact hnotmem (List.mem_map.mpr ⟨e, he, by simpa using hh⟩)
    show Wf ( addAnnotation a oid now s)
    have hset : mapSet s.annotations a.id a = s.annotations ++ [(a.id, a)] := by
      unfold mapSet
      rw [if_neg hany]
    refine ⟨?_, horder, ?_⟩
    · show ((mapSet s.annotations a.id a).map Prod.fst).Nodup
      rw [hset, List.map_append]
      rw [List.nodup_append]
      refine ⟨hkeys, by simp, ?_⟩
      intro x hx
      simp only [List.map_cons, List.map_nil, List.mem_singleton]
      intro hxx
      subst hxx
      exact hnotmem hx
    · intro e he
      show e.2.id = e.1
      rw [show ( addAnnotation a oid now s).annotations =
        mapSet s.annotations a.id a from rfl, hset] at he
      rcases List.mem_append.mp he with h1 | h1
      · exact hcons e h1
      · simp only [List.mem_singleton] at h1
        rw [h1]
  | update id ch => exact hex.elim
  | delAnn id =>
    show Wf ( deleteAnnotation id oid now s)
    obtain ⟨ann, hsome⟩ := Option.isSome_iff_exists.mp hv
    have happly := (roundtrip_delAnn s id oid now ann hsome
      (hcons (id, ann) (mapGet_some_mem _ _ _ hsome))).1
    rw [happly]
    refine ⟨?_, horder, ?_⟩
    · show ((mapDelete s.annotations id).map Prod.fst).Nodup
      exact ((List.filter_sublist _).map Prod.fst).nodup hkeys
    · intro e he
      exact hcons e (List.mem_of_mem_filter he)
  | rotate p d => exact ⟨hkeys, horder, hcons⟩
  | delPage p => exact hex.elim
  | reorder f t =>
    show Wf (reorderPages f t oid now s)
    refine ⟨hkeys, ?_, hcons⟩
    show (jsMove f t s.pageOrder).Nodup
    exact (jsMove_perm f t s.pageOrder hv.1).nodup_iff.mpr horder

/-- P1: undoing a just-applied exactly-invertible operation restores the
state up to `operations` and `redoStack`. -/
theorem equiv_undo_apply (c : MutCall) (oid : String) (now : Nat)
    (s : EditorState) (hwf : Wf s) (hv : ValidCall c s) (hex : ExactKind c) :
    EquivSt (undo (applyCall c oid now s)) s := by
  cases c with
  | add a =>
    have h := (roundtrip_add s a oid now hv).1
    show EquivSt (undo ( addAnnotation a oid now s)) s
    rw [h]
    exact ⟨rfl, fun _ => rfl, rfl, rfl, fun _ => rfl, rfl, rfl⟩
  | update id ch => exact hex.elim
  | delAnn id =>
    obtain ⟨ann, hsome⟩ := Option.isSome_iff_exists.mp hv
    have hid : ann.id = id := hwf.2.2 (id, ann) (mapGet_some_mem _ _ _ hsome)
    have h := (roundtrip_delAnn s id oid now ann hsome hid).2.1
    show EquivSt (undo ( deleteAnnotation id oid now s)) s
    rw [h]
    refine ⟨rfl, fun _ => rfl, rfl, rfl, ?_, rfl, rfl⟩
    intro k
    show mapGet (mapSet (mapDelete s.annotations id) id ann) k =
      mapGet s.annotations k
    by_cases hk : k = id
    · subst hk
      rw [mapGet_mapSet_self, hsome]
    · rw [mapGet_mapSet_ne _ _ _ _ hk, mapGet_mapDelete_ne _ _ _ hk]
  | rotate p d =>
    have h := (roundtrip_rotate s p d oid now).1
    show EquivSt (undo (rotatePage p d oid now s)) s
    rw [h]
    refine ⟨rfl, ?_, rfl, rfl, fun _ => rfl, rfl, rfl⟩
    intro k
    show recGet (recSet
      (recSet s.pageRotations p (Int.tmod (recGet s.pageRotations p + d) 360)) p
      (recGet s.pageRotations p)) k = recGet s.pageRotations k
    by_cases hk : k = p
    · subst hk
      rw [recGet_recSet_self]
    · rw [recGet_recSet_ne _ _ _ _ hk, recGet_recSet_ne _ _ _ _ hk]
  | delPage p => exact hex.elim
  | reorder f t =>
    have h := (roundtrip_reorder s f t oid now hv.1 hv.2).1
    show EquivSt (undo (reorderPages f t oid now s)) s
    rw [h]
    exact ⟨rfl, fun _ => rfl, rfl, rfl, fun _ => rfl, rfl, rfl⟩

/-- `undoOp` never touches the log, the stacks, `numPages` or
`currentPage`. -/
theorem undoOp_frame (op : Operation) (t : EditorState) :
    (undoOp op t).numPages = t.numPages ∧
      (undoOp op t).currentPage = t.currentPage ∧
      (undoOp op t).operations = t.operations ∧
      (undoOp op t).undoStack = t.undoStack ∧
      (undoOp op t).redoStack = t.redoStack := by
  cases op <;> simp only [undoOp] <;> (try split) <;> simp

/-- P2: `undo` is a congruence for `EquivSt`. -/
theorem equiv_undo_congr (X Y : EditorState) (h : EquivSt X Y) :
    EquivSt (undo X) (undo Y) := by
  unfold undo
  rw [h.undoStack]
  cases hop : Y.undoStack.getLast? with
  | none => exact h
  | some op =>
    refine ⟨?np, ?rot, ?del, ?ord, ?ann, ?us, ?cp⟩
    case us => rfl
    case np =>
      show (undoOp op X).numPages = (undoOp op Y).numPages
      rw [(undoOp_frame op X).1, (undoOp_frame op Y).1, h.numPages]
    case cp =>
      show (undoOp op X).currentPage = (undoOp op Y).currentPage
      rw [(undoOp_frame op X).2.1, (undoOp_frame op Y).2.1, h.currentPage]
    case rot =>
      intro k
      show recGet (undoOp op X).pageRotations k =
        recGet (undoOp op Y).pageRotations k
      cases op with
      | rotate_page oid ts p rot prevR =>
        simp only [undoOp]
        by_cases hk : k = p
        · subst hk
          rw [recGet_recSet_self, recGet_recSet_self]
        · rw [recGet_recSet_ne _ _ _ _ hk, recGet_recSet_ne _ _ _ _ hk,
            h.rotations k]
      | update_annotation oid ts aid ch prev =>
        have hX : mapGet X.annotations aid = mapGet Y.annotations aid :=
          h.annotations aid
        cases hm : mapGet Y.annotations aid with
        | none =>
          rw [hm] at hX
          simp only [undoOp, hX, hm]
          exact h.rotations k
        | some v =>
          rw [hm] at hX
          simp only [undoOp, hX, hm]
          exact h.rotations k
      | add_annotation oid ts a => exact h.rotations k
      | delete_annotation oid ts a => exact h.rotations k
      | delete_page oid ts p => exact h.rotations k
      | reorder_pages oid ts f t => exact h.rotations k
    case del =>
      show (undoOp op X).deletedPages = (undoOp op Y).deletedPages
      cases op with
      | delete_page oid ts p =>
        simp only [undoOp]
        rw [h.deleted]
      | update_annotation oid ts aid ch prev =>
        have hX : mapGet X.annotations aid = mapGet Y.annotations aid :=
          h.annotations aid
        cases hm : mapGet Y.annotations aid with
        | none =>
          rw [hm] at hX
          simp only [undoOp, hX, hm]
          exact h.deleted
        | some v =>
          rw [hm] at hX
          simp only [undoOp, hX, hm]
          exact h.deleted
      | add_annotation oid ts a => exact h.deleted
      | delete_annotation oid ts a => exact h.deleted
      | rotate_page oid ts p rot prevR => exact h.deleted
      | reorder_pages oid ts f t => exact h.deleted
    case ord =>
      show (undoOp op X).pageOrder = (undoOp op Y).pageOrder
      cases op with
      | delete_page oid ts p =>
        simp only [undoOp]
        rw [h.order]
      | reorder_pages oid ts f t =>
        simp only [undoOp]
        rw [h.order]
      | update_annotation oid ts aid ch prev =>
        have hX : mapGet X.annotations aid = mapGet Y.annotations aid :=
          h.annotations aid
        cases hm : mapGet Y.annotations aid with
        | none =>
          rw [hm] at hX
          simp only [undoOp, hX, hm]
          exact h.order
        | some v =>
          rw [hm] at hX
          simp only [undoOp, hX, hm]
          exact h.order
      | add_annotation oid ts a => exact h.order
      | delete_annotation oid ts a => exact h.order
      | rotate_page oid ts p rot prevR => exact h.order
    case ann =>
      intro k
      show mapGet (undoOp op X).annotations k =
        mapGet (undoOp op Y).annotations k
      cases op with
      | add_annotation oid ts a =>
        simp only [undoOp]
        by_cases hk : k = a.id
        · subst hk
          rw [mapGet_mapDelete_self, mapGet_mapDelete_self]
        · rw [mapGet_mapDelete_ne _ _ _ hk, mapGet_mapDelete_ne _ _ _ hk,
            h.annotations k]
      | delete_annotation oid ts a =>
        simp only [undoOp]
        by_cases hk : k = a.id
        · subst hk
          rw [mapGet_mapSet_self, mapGet_mapSet_self]
        · rw [mapGet_mapSet_ne _ _ _ _ hk, mapGet_mapSet_ne _ _ _ _ hk,
            h.annotations k]
      | update_annotation oid ts aid ch prev =>
        have hX : mapGet X.annotations aid = mapGet Y.annotations aid :=
          h.annotations aid
        cases hm : mapGet Y.annotations aid with
        | none =>
          rw [hm] at hX
          simp only [undoOp, hX, hm]
          exact h.annotations k
        | some v =>
          rw [hm] at hX
          simp only [undoOp, hX, hm]
          by_cases hk : k = aid
          · subst hk
            rw [mapGet_mapSet_self, mapGet_mapSet_self]
          · rw [mapGet_mapSet_ne _ _ _ _ hk, mapGet_mapSet_ne _ _ _ _ hk,
              h.annotations k]
      | rotate_page oid ts p rot prevR => exact h.annotations k
      | delete_page oid ts p => exact h.annotations k
      | reorder_pages oid ts f t => exact h.annotations k

theorem undoN_succ_outer (n : Nat) (t : EditorState) :
    undoN (n + 1) t = undo (undoN n t) := by
  induction n generalizing t with
  | zero => rfl
  | succ n ih =>
    show undoN (n + 1) (undo t) = undo (undoN (n + 1) t)
    rw [ih (undo t)]
    rfl

/-- Iterated undo after a sequence of valid, exactly-invertible operations
restores the state up to `operations` and `redoStack`. -/
theorem seq_undo_restores (calls : List (MutCall × String × Nat))
    (s : EditorState) (hwf : Wf s) (hsv : SeqValid s calls)
    (hex : ∀ x ∈ calls, ExactKind x.1) :
    EquivSt (undoN calls.length (applySeq calls s)) s := by
  induction calls generalizing s with
  | nil => exact equivSt_refl s
  | cons c rest ih =>
    have hv : ValidCall c.1 s := hsv.1
    have hexc : ExactKind c.1 := hex c (List.mem_cons_self c rest)
    have hwf' : Wf (applyCall c.1 c.2.1 c.2.2 s) :=
      wf_applyCall c.1 c.2.1 c.2.2 s hwf hv hexc
    have h1 : EquivSt
        (undoN rest.length (applySeq rest (applyCall c.1 c.2.1 c.2.2 s)))
        (applyCall c.1 c.2.1 c.2.2 s) :=
      ih (applyCall c.1 c.2.1 c.2.2 s) hwf' hsv.2
        fun x hx => hex x (List.mem_cons_of_mem c hx)
    have hstep : applySeq (c :: rest) s =
        applySeq rest (applyCall c.1 c.2.1 c.2.2 s) := rfl
    have hlen : (c :: rest).length = rest.length + 1 := rfl
    rw [hstep, hlen, undoN_succ_outer]
    exact equivSt_trans (equiv_undo_congr _ _ h1)
      (equiv_undo_apply c.1 c.2.1 c.2.2 s hwf hv hexc)

/-- C1 (amended): from any well-formed state and any valid mutator call:
(1) `redo(undo(apply(op)))` reproduces `apply(op)`'s model exactly for every
operation kind; (2) `undo(apply(op))` restores the model exactly for
`addAnnotation` (fresh id), `deleteAnnotation`, `rotatePage` and
`reorderPages`; (3) for `updateAnnotation` it restores every model component
except that the target annotation keeps the apply-time `updatedAt` stamp;
(4) for `deletePage` it restores annotations, rotations and the deleted set
exactly, but re-inserts the page at array position `pageIndex`, restoring
`pageOrder` only up to permutation; and (5) `n` undos after any sequence of
`n` valid operations of the exactly-invertible kinds restore the model
exactly.  The claim's unrestricted statement fails on the code
(`claim_C1_counterexample`). -/
theorem claim_C1_undo_redo_roundtrip (c : MutCall) (oid : String) (now : Nat)
    (s : EditorState) (hwf : Wf s) (hv : ValidCall c s) :
    modelOf (redo (undo (applyCall c oid now s))) =
        modelOf (applyCall c oid now s) ∧
      (ExactKind c → modelOf (undo (applyCall c oid now s)) = modelOf s) ∧
      (∀ id ch, c = MutCall.update id ch →
        (undo (applyCall c oid now s)).pageRotations = s.pageRotations ∧
          (undo (applyCall c oid now s)).deletedPages = s.deletedPages ∧
          (undo (applyCall c oid now s)).pageOrder = s.pageOrder ∧
          ∀ k, mapGet (undo (applyCall c oid now s)).annotations k =
            if k = id then
              (mapGet s.annotations id).map fun a => stampUpdatedAt a now
            else mapGet s.annotations k) ∧
      (∀ p, c = MutCall.delPage p →
        (undo (applyCall c oid now s)).annotations = s.annotations ∧
          (undo (applyCall c oid now s)).pageRotations = s.pageRotations ∧
          (undo (applyCall c oid now s)).deletedPages = s.deletedPages ∧
          List.Perm (undo (applyCall c oid now s)).pageOrder s.pageOrder) ∧
      (∀ calls : List (MutCall × String × Nat), SeqValid s calls →
        (∀ x ∈ calls, ExactKind x.1) →
        modelOf (undoN calls.length (applySeq calls s)) = modelOf s) := by
  refine ⟨?red, ?ex, ?upd, ?dp, ?seq⟩
  case ex =>
    intro hex
    exact modelOf_eq_of_equiv (equiv_undo_apply c oid now s hwf hv hex)
  case seq =>
    intro calls hsv hex
    exact modelOf_eq_of_equiv (seq_undo_restores calls s hwf hsv hex)
  case upd =>
    intro id ch hc
    subst hc
    obtain ⟨hvs, hupd⟩ := hv
    obtain ⟨orig, hsome⟩ := Option.isSome_iff_exists.mp hvs
    have h1 := (roundtrip_update s id oid now ch orig hsome hupd).2.1
    rw [show applyCall (MutCall.update id ch) oid now s =
      updateAnnotation id ch oid now s from rfl, h1]
    refine ⟨rfl, rfl, rfl, ?_⟩
    intro k
    by_cases hk : k = id
    · subst hk
      rw [if_pos rfl, mapGet_mapSet_self, hsome]
      rfl
    · rw [if_neg hk, mapGet_mapSet_ne _ _ _ _ hk, mapGet_mapSet_ne _ _ _ _ hk]
  case dp =>
    intro p hc
    subst hc
    obtain ⟨hmem, hdel, hlen⟩ := hv
    have h1 := (roundtrip_delPage s p oid now hmem hdel hlen).1
    rw [show applyCall (MutCall.delPage p) oid now s =
      deletePage p oid now s from rfl, h1]
    refine ⟨rfl, rfl, rfl, ?_⟩
    show List.Perm (spliceInsert p p (s.pageOrder.filter fun i => ¬ i = p))
      s.pageOrder
    refine List.Perm.trans (spliceInsert_perm _ _ _) ?_
    rw [filter_ne_eq_erase _ _ hwf.2.1]
    exact (List.perm_cons_erase hmem).symm
  case red =>
    cases c with
    | add a =>
      exact congrArg modelOf (roundtrip_add s a oid now hv).2
    | delAnn id =>
      obtain ⟨ann, hsome⟩ := Option.isSome_iff_exists.mp hv
      have hid : ann.id = id := hwf.2.2 (id, ann) (mapGet_some_mem _ _ _ hsome)
      obtain ⟨happly, h1, h2⟩ := roundtrip_delAnn s id oid now ann hsome hid
      show modelOf (redo (undo ( deleteAnnotation id oid now s))) =
        modelOf ( deleteAnnotation id oid now s)
      rw [h2, happly]
      unfold modelOf
      ext1
      · refine funext fun k => ?_
        show mapGet (mapDelete (mapSet (mapDelete s.annotations id) id ann) id)
          k = mapGet (mapDelete s.annotations id) k
        by_cases hk : k = id
        · subst hk
          rw [mapGet_mapDelete_self, mapGet_mapDelete_self]
        · simp only [mapGet_mapDelete_ne _ _ _ hk, mapGet_mapSet_ne _ _ _ _ hk]
      · rfl
      · rfl
      · rfl
    | update id ch =>
      obtain ⟨hvs, hupd⟩ := hv
      obtain ⟨orig, hsome⟩ := Option.isSome_iff_exists.mp hvs
      obtain ⟨happly, h1, h2⟩ := roundtrip_update s id oid now ch orig hsome hupd
      show modelOf (redo (undo ( updateAnnotation id ch oid now s))) =
        modelOf ( updateAnnotation id ch oid now s)
      rw [h2, happly]
      unfold modelOf
      ext1
      · refine funext fun k => ?_
        show mapGet (mapSet (mapSet (mapSet s.annotations id
            (stampUpdatedAt (applyPatch orig ch) now)) id (stampUpdatedAt orig now))
            id (stampUpdatedAt (applyPatch orig ch) now)) k =
          mapGet (mapSet s.annotations id
            (stampUpdatedAt (applyPatch orig ch) now)) k
        by_cases hk : k = id
        · subst hk
          rw [mapGet_mapSet_self, mapGet_mapSet_self]
        · simp only [mapGet_mapSet_ne _ _ _ _ hk]
      · rfl
      · rfl
      · rfl
    | rotate p d =>
      obtain ⟨h1, h2⟩ := roundtrip_rotate s p d oid now
      show modelOf (redo (undo (rotatePage p d oid now s))) =
        modelOf (rotatePage p d oid now s)
      rw [h2]
      unfold modelOf
      ext1
      · rfl
      · refine funext fun k => ?_
        show recGet (recSet (recSet (recSet s.pageRotations p
            (Int.tmod (recGet s.pageRotations p + d) 360)) p
            (recGet s.pageRotations p)) p
            (Int.tmod (recGet s.pageRotations p + d) 360)) k =
          recGet (rotatePage p d oid now s).pageRotations k
        show _ = recGet (recSet s.pageRotations p
          (Int.tmod (recGet s.pageRotations p + d) 360)) k
        by_cases hk : k = p
        · subst hk
          rw [recGet_recSet_self, recGet_recSet_self]
        · simp only [recGet_recSet_ne _ _ _ _ hk]
      · rfl
      · rfl
    | delPage p =>
      obtain ⟨hmem, hdel, hlen⟩ := hv
      exact congrArg modelOf (roundtrip_delPage s p oid now hmem hdel hlen).2
    | reorder f t =>
      exact congrArg modelOf (roundtrip_reorder s f t oid now hv.1 hv.2).2

/-- C1 counterexample: two valid `deletePage` calls followed by two undos do
not restore the initial model.  On a freshly loaded 3-page document,
`deletePage(0); deletePage(1); undo(); undo()` leaves `pageOrder = [0, 2, 1]`
— the buggy `delete_page` undo splices each page back at its original page
index — instead of the initial `[0, 1, 2]`; the inner single undo is not a
no-op on the model either (`[2, 1]` versus the pre-apply `[1, 2]`). -/
theorem claim_C1_counterexample :
    (undo (undo (deletePage 1 "b" 2
        (deletePage 0 "a" 1 (loadDocument 3))))).pageOrder = [0, 2, 1] ∧
      (loadDocument 3).pageOrder = [0, 1, 2] ∧
      ¬ ((undo (undo (deletePage 1 "b" 2
          (deletePage 0 "a" 1 (loadDocument 3))))).pageOrder =
        (loadDocument 3).pageOrder) ∧
      (undo (deletePage 1 "b" 2
        (deletePage 0 "a" 1 (loadDocument 3)))).pageOrder = [2, 1] ∧
      (deletePage 0 "a" 1 (loadDocument 3)).pageOrder = [1, 2] := by
  exact ⟨rfl, rfl, by decide, rfl, rfl⟩

/-- Witness for C1 (amended) at a concrete input: `rotatePage(0, 90)` on a
fresh 2-page document. -/
theorem claim_C1_undo_redo_roundtrip_witness :
    Wf (loadDocument 2) ∧
      modelOf (redo (undo
          (applyCall (MutCall.rotate 0 90) "w" 7 (loadDocument 2)))) =
        modelOf (applyCall (MutCall.rotate 0 90) "w" 7 (loadDocument 2)) ∧
      modelOf (undo (applyCall (MutCall.rotate 0 90) "w" 7 (loadDocument 2))) =
        modelOf (loadDocument 2) :=
  ⟨by unfold Wf; decide,
    (claim_C1_undo_redo_roundtrip (MutCall.rotate 0 90) "w" 7 (loadDocument 2)
      (by unfold Wf; decide) trivial).1,
    (claim_C1_undo_redo_roundtrip (MutCall.rotate 0 90) "w" 7 (loadDocument 2)
      (by unfold Wf; decide) trivial).2.1 trivial⟩

/-! ## Structural invariant of reachable states (claim C6) -/

theorem getLast?_decomp (l : List Operation) (op : Operation)
    (h : l.getLast? = some op) : l = l.dropLast ++ [op] ∧ op ∈ l := by
  have hne : l ≠ [] := by
    intro hl
    rw [hl] at h
    simp at h
  have hg : l.getLast hne = op := by
    have h2 := List.getLast?_eq_getLast l hne
    rw [h2] at h
    exact Option.some.inj h
  constructor
  · rw [← hg]
    exact (List.dropLast_concat_getLast hne).symm
  · rw [← hg]
    exact List.getLast_mem hne

theorem length_filter_ne_of_mem (l : List Nat) (p : Nat) (hmem : p ∈ l)
    (hnd : l.Nodup) :
    (l.filter fun i => ¬ i = p).length = l.length - 1 := by
  rw [filter_ne_eq_erase l p hnd]
  exact List.length_erase_of_mem hmem

/-- Pushing a fresh non-`delete_page` operation while touching neither
page structure preserves the invariant. -/
theorem inv_mut_frame (s t : EditorState) (op : Operation) (hi : Inv s)
    (ht1 : t.numPages = s.numPages) (ht2 : t.deletedPages = s.deletedPages)
    (ht3 : t.pageOrder = s.pageOrder)
    (ht4 : t.undoStack = s.undoStack ++ [op]) (ht5 : t.redoStack = [])
    (hop : delPageIndex? op = none)
    (hbound : stackBoundsUndo (op :: s.undoStack.reverse)
      s.pageOrder.length) : Inv t := by
  obtain ⟨ho_nd, ho_mem, hd_nd, hd_lt, hu_del, _, hu_nd, _, _, _⟩ := hi
  refine ⟨?_, ?_, ?_, ?_, ?_, ?_, ?_, ?_, ?_, ?_⟩
  · rw [ht3]; exact ho_nd
  · intro i; rw [ht1, ht2, ht3]; exact ho_mem i
  · rw [ht2]; exact hd_nd
  · rw [ht1, ht2]; exact hd_lt
  · intro o ho p hp
    rw [ht4] at ho
    rw [ht2]
    rcases List.mem_append.mp ho with h1 | h1
    · exact hu_del o h1 p hp
    · simp only [List.mem_singleton] at h1
      subst h1
      rw [hop] at hp
      exact absurd hp (by simp)
  · intro o ho
    rw [ht5] at ho
    exact absurd ho (by simp)
  · rw [ht4, List.filterMap_append]
    simp only [List.filterMap_cons, List.filterMap_nil, hop]
    simpa using hu_nd
  · rw [ht5]; simp
  · rw [ht4, ht3, List.reverse_append]
    simpa using hbound
  · rw [ht5]; simp [stackBoundsRedo]

/-- Popping a non-structural, non-`delete_page` operation off the undo stack
onto the redo stack preserves the invariant. -/
theorem inv_undo_frame (s t : EditorState) (op : Operation) (hi : Inv s)
    (hpop : s.undoStack.getLast? = some op)
    (ht1 : t.numPages = s.numPages) (ht2 : t.deletedPages = s.deletedPages)
    (ht3 : t.pageOrder = s.pageOrder)
    (ht4 : t.undoStack = s.undoStack.dropLast)
    (ht5 : t.redoStack = s.redoStack ++ [op])
    (hop : delPageIndex? op = none)
    (hU : ∀ l n, stackBoundsUndo (op :: l) n = stackBoundsUndo l n)
    (hR : ∀ l n, stackBoundsRedo (op :: l) n = stackBoundsRedo l n) :
    Inv t := by
  obtain ⟨ho_nd, ho_mem, hd_nd, hd_lt, hu_del, hr_del, hu_nd, hr_nd, hu_b, hr_b⟩ := hi
  obtain ⟨hdec, _⟩ := getLast?_decomp _ _ hpop
  refine ⟨?_, ?_, ?_, ?_, ?_, ?_, ?_, ?_, ?_, ?_⟩
  · rw [ht3]; exact ho_nd
  · intro i; rw [ht1, ht2, ht3]; exact ho_mem i
  · rw [ht2]; exact hd_nd
  · rw [ht1, ht2]; exact hd_lt
  · intro o ho p hp
    rw [ht4] at ho
    rw [ht2]
    exact hu_del o ((List.dropLast_sublist _).mem ho) p hp
  · intro o ho p hp
    rw [ht5] at ho
    rw [ht1, ht2]
    rcases List.mem_append.mp ho with h1 | h1
    · exact hr_del o h1 p hp
    · simp only [List.mem_singleton] at h1
      subst h1
      rw [hop] at hp
      exact absurd hp (by simp)
  · rw [ht4]
    exact ((List.dropLast_sublist _).filterMap _).nodup hu_nd
  · rw [ht5, List.filterMap_append]
    simp only [List.filterMap_cons, List.filterMap_nil, hop]
    simpa using hr_nd
  · rw [ht4, ht3]
    have : s.undoStack.reverse = op :: s.undoStack.dropLast.reverse := by
      conv_lhs => rw [hdec]
      rw [List.reverse_append]
      simp
    rw [this, hU] at hu_b
    exact hu_b
  · rw [ht5, ht3, List.reverse_append]
    have : stackBoundsRedo (op :: s.redoStack.reverse) s.pageOrder.length := by
      rw [hR]
      exact hr_b
    simpa using this

/-- Popping a non-structural, non-`delete_page` operation off the redo stack
back onto the undo stack preserves the invariant. -/
theorem inv_redo_frame (s t : EditorState) (op : Operation) (hi : Inv s)
    (hpop : s.redoStack.getLast? = some op)
    (ht1 : t.numPages = s.numPages) (ht2 : t.deletedPages = s.deletedPages)
    (ht3 : t.pageOrder = s.pageOrder)
    (ht4 : t.undoStack = s.undoStack ++ [op])
    (ht5 : t.redoStack = s.redoStack.dropLast)
    (hop : delPageIndex? op = none)
    (hU : ∀ l n, stackBoundsUndo (op :: l) n = stackBoundsUndo l n)
    (hR : ∀ l n, stackBoundsRedo (op :: l) n = stackBoundsRedo l n) :
    Inv t := by
  obtain ⟨ho_nd, ho_mem, hd_nd, hd_lt, hu_del, hr_del, hu_nd, hr_nd, hu_b, hr_b⟩ := hi
  obtain ⟨hdec, _⟩ := getLast?_decomp _ _ hpop
  refine ⟨?_, ?_, ?_, ?_, ?_, ?_, ?_, ?_, ?_, ?_⟩
  · rw [ht3]; exact ho_nd
  · intro i; rw [ht1, ht2, ht3]; exact ho_mem i
  · rw [ht2]; exact hd_nd
  · rw [ht1, ht2]; exact hd_lt
  · intro o ho p hp
    rw [ht4] at ho
    rw [ht2]
    rcases List.mem_append.mp ho with h1 | h1
    · exact hu_del o h1 p hp
    · simp only [List.mem_singleton] at h1
      subst h1
      rw [hop] at hp
      exact absurd hp (by simp)
  · intro o ho p hp
    rw [ht5] at ho
    rw [ht1, ht2]
    exact hr_del o ((List.dropLast_sublist _).mem ho) p hp
  · rw [ht4, List.filterMap_append]
    simp only [List.filterMap_cons, List.filterMap_nil, hop]
    simpa using hu_nd
  · rw [ht5]
    exact ((List.dropLast_sublist _).filterMap _).nodup hr_nd
  · rw [ht4, ht3, List.reverse_append]
    have : stackBoundsUndo (op :: s.undoStack.reverse) s.pageOrder.length := by
      rw [hU]
      exact hu_b
    simpa using this
  · rw [ht5, ht3]
    have : s.redoStack.reverse = op :: s.redoStack.dropLast.reverse := by
      conv_lhs => rw [hdec]
      rw [List.reverse_append]
      simp
    rw [this, hR] at hr_b
    exact hr_b

/-- The invariant is preserved by every valid mutator call. -/
theorem inv_call (c : MutCall) (oid : String) (now : Nat) (s : EditorState)
    (hi : Inv s) (hv : ValidCall c s) : Inv (applyCall c oid now s) := by
  cases c with
  | add a =>
    exact inv_mut_frame s _ ( Operation.add_annotation oid now a) hi rfl rfl rfl
      rfl rfl rfl hi.undo_bounds
  | update id ch =>
    show Inv ( updateAnnotation id ch oid now s)
    cases hm : mapGet s.annotations id with
    | none =>
      rw [show updateAnnotation id ch oid now s = s by
        simp only [ updateAnnotation, hm]]
      exact hi
    | some ex =>
      have happ : updateAnnotation id ch oid now s =
          { s with
            annotations := mapSet s.annotations id
              (stampUpdatedAt (applyPatch ex ch) now)
            operations := s.operations ++
              [ Operation.update_annotation oid now id ch (snapshotPatch ex ch)]
            undoStack := s.undoStack ++
              [ Operation.update_annotation oid now id ch (snapshotPatch ex ch)]
            redoStack := [] } := by
        simp only [ updateAnnotation, hm]
      rw [happ]
      exact inv_mut_frame s _
        ( Operation.update_annotation oid now id ch (snapshotPatch ex ch)) hi rfl
        rfl rfl rfl rfl rfl hi.undo_bounds
  | delAnn id =>
    show Inv ( deleteAnnotation id oid now s)
    cases hm : mapGet s.annotations id with
    | none =>
      rw [show deleteAnnotation id oid now s = s by
        simp only [ deleteAnnotation, hm]]
      exact hi
    | some ann =>
      have happ : deleteAnnotation id oid now s =
          { s with
            annotations := mapDelete s.annotations id
            operations := s.operations ++
              [ Operation.delete_annotation oid now ann]
            undoStack := s.undoStack ++
              [ Operation.delete_annotation oid now ann]
            redoStack := [] } := by
        simp only [ deleteAnnotation, hm]
      rw [happ]
      exact inv_mut_frame s _ ( Operation.delete_annotation oid now ann) hi rfl
        rfl rfl rfl rfl rfl hi.undo_bounds
  | rotate p d =>
    exact inv_mut_frame s _
      (Operation.rotate_page oid now p d (recGet s.pageRotations p)) hi rfl rfl
      rfl rfl rfl rfl hi.undo_bounds
  | reorder f t =>
    show Inv (reorderPages f t oid now s)
    obtain ⟨hf, ht⟩ := hv
    obtain ⟨ho_nd, ho_mem, hd_nd, hd_lt, hu_del, _, hu_nd, _, hu_b, _⟩ := hi
    have hperm := jsMove_perm f t s.pageOrder hf
    have hlen := jsMove_length f t s.pageOrder hf
    refine ⟨?_, ?_, hd_nd, hd_lt, ?_, ?_, ?_, ?_, ?_, ?_⟩
    · exact hperm.nodup_iff.mpr ho_nd
    · intro i
      rw [show (reorderPages f t oid now s).pageOrder =
        jsMove f t s.pageOrder from rfl]
      rw [hperm.mem_iff]
      exact ho_mem i
    · intro o ho p hp
      rcases List.mem_append.mp ho with h1 | h1
      · exact hu_del o h1 p hp
      · simp only [List.mem_singleton] at h1
        subst h1
        exact absurd hp (by simp [delPageIndex?])
    · intro o ho p hp
      exact absurd ho (List.not_mem_nil o)
    · show ((s.undoStack ++ [Operation.reorder_pages oid now f t]).filterMap
        delPageIndex?).Nodup
      rw [List.filterMap_append]
      simp only [List.filterMap_cons, List.filterMap_nil, delPageIndex?]
      simpa using hu_nd
    · exact List.nodup_nil
    · show stackBoundsUndo
        ((s.undoStack ++ [Operation.reorder_pages oid now f t]).reverse)
        (jsMove f t s.pageOrder).length
      rw [List.reverse_append, hlen]
      simpa using ⟨hf, ht, hu_b⟩
    · show stackBoundsRedo (List.reverse []) (jsMove f t s.pageOrder).length
      simp [stackBoundsRedo]
  | delPage p =>
    show Inv (deletePage p oid now s)
    obtain ⟨hmem, hdel, hlen⟩ := hv
    obtain ⟨ho_nd, ho_mem, hd_nd, hd_lt, hu_del, _, hu_nd, _, hu_b, _⟩ := hi
    have happ : deletePage p oid now s =
        { s with
          deletedPages := setAdd s.deletedPages p
          pageOrder := s.pageOrder.filter fun i => ¬ i = p
          currentPage :=
            min s.currentPage (s.pageOrder.filter fun i => ¬ i = p).length
          operations := s.operations ++ [Operation.delete_page oid now p]
          undoStack := s.undoStack ++ [Operation.delete_page oid now p]
          redoStack := [] } := by
      simp only [deletePage, if_neg (by omega : ¬ s.pageOrder.length ≤ 1)]
    rw [happ]
    have hpN : p < s.numPages := ((ho_mem p).mp hmem).1
    refine ⟨?_, ?_, ?_, ?_, ?_, ?_, ?_, ?_, ?_, ?_⟩
    · exact (List.filter_sublist _).nodup ho_nd
    · intro i
      show i ∈ s.pageOrder.filter (fun i => ¬ i = p) ↔
        i < s.numPages ∧ ¬ i ∈ setAdd s.deletedPages p
      rw [List.mem_filter, ho_mem i, mem_setAdd]
      constructor
      · rintro ⟨⟨h1, h2⟩, h3⟩
        simp only [decide_eq_true_eq] at h3
        exact ⟨h1, by tauto⟩
      · rintro ⟨h1, h2⟩
        push_neg at h2
        exact ⟨⟨h1, h2.1⟩, by simpa using h2.2⟩
    · exact setAdd_nodup _ _ hd_nd
    · intro q hq
      rcases (mem_setAdd _ _ _).mp hq with h1 | h1
      · exact hd_lt q h1
      · subst h1; exact hpN
    · intro o ho q hq
      rcases List.mem_append.mp ho with h1 | h1
      · exact (mem_setAdd _ _ _).mpr (Or.inl (hu_del o h1 q hq))
      · simp only [List.mem_singleton] at h1
        subst h1
        simp only [delPageIndex?, Option.some.injEq] at hq
        subst hq
        exact (mem_setAdd _ _ _).mpr (Or.inr rfl)
    · intro o ho q hq
      exact absurd ho (by simp)
    · show ((s.undoStack ++ [Operation.delete_page oid now p]).filterMap
        delPageIndex?).Nodup
      rw [List.filterMap_append]
      simp only [List.filterMap_cons, List.filterMap_nil, delPageIndex?]
      rw [List.nodup_append]
      refine ⟨hu_nd, by simp, ?_⟩
      intro q hq
      simp only [List.mem_singleton]
      intro hqp
      subst hqp
      obtain ⟨o, ho, hoq⟩ := List.mem_filterMap.mp hq
      exact hdel (hu_del o ho q hoq)
    · simp
    · show stackBoundsUndo
        ((s.undoStack ++ [Operation.delete_page oid now p]).reverse)
        (s.pageOrder.filter fun i => ¬ i = p).length
      rw [List.reverse_append, length_filter_ne_of_mem _ _ hmem ho_nd]
      have hb : stackBoundsUndo
          (Operation.delete_page oid now p :: s.undoStack.reverse)
          (s.pageOrder.length - 1) := by
        show stackBoundsUndo s.undoStack.reverse (s.pageOrder.length - 1 + 1)
        rw [Nat.sub_add_cancel (by omega)]
        exact hu_b
      simpa using hb
    · simp [stackBoundsRedo]

/-- The invariant is preserved by `undo`. -/
theorem inv_undo (s : EditorState) (hi : Inv s) : Inv (undo s) := by
  cases hpop : s.undoStack.getLast? with
  | none =>
    rw [show undo s = s by unfold undo; rw [hpop]]
    exact hi
  | some op =>
    have hundo : undo s = { undoOp op s with
        undoStack := s.undoStack.dropLast
        redoStack := s.redoStack ++ [op] } := by
      unfold undo
      rw [hpop]
    rw [hundo]
    obtain ⟨hdec, hopmem⟩ := getLast?_decomp _ _ hpop
    cases op with
    | add_annotation oid ts a =>
      exact inv_undo_frame s _ _ hi hpop rfl rfl rfl rfl rfl rfl
        (fun _ _ => rfl) (fun _ _ => rfl)
    | delete_annotation oid ts a =>
      exact inv_undo_frame s _ _ hi hpop rfl rfl rfl rfl rfl rfl
        (fun _ _ => rfl) (fun _ _ => rfl)
    | rotate_page oid ts p rot prevR =>
      exact inv_undo_frame s _ _ hi hpop rfl rfl rfl rfl rfl rfl
        (fun _ _ => rfl) (fun _ _ => rfl)
    | update_annotation oid ts aid ch prev =>
      refine inv_undo_frame s _ _ hi hpop ?_ ?_ ?_ rfl rfl rfl
        (fun _ _ => rfl) (fun _ _ => rfl)
      · show (undoOp ( Operation.update_annotation oid ts aid ch prev)
          s).numPages = s.numPages
        simp only [undoOp]
        split <;> rfl
      · show (undoOp ( Operation.update_annotation oid ts aid ch prev)
          s).deletedPages = s.deletedPages
        simp only [undoOp]
        split <;> rfl
      · show (undoOp ( Operation.update_annotation oid ts aid ch prev)
          s).pageOrder = s.pageOrder
        simp only [undoOp]
        split <;> rfl
    | delete_page oid ts p =>
      obtain ⟨ho_nd, ho_mem, hd_nd, hd_lt, hu_del, hr_del, hu_nd, hr_nd,
        hu_b, hr_b⟩ := hi
      have hp : p ∈ s.deletedPages := hu_del _ hopmem p rfl
      have hpN : p < s.numPages := hd_lt p hp
      have hnotord : ¬ p ∈ s.pageOrder := fun hmem =>
        ((ho_mem p).mp hmem).2 hp
      have hfm : s.undoStack.filterMap delPageIndex? =
          s.undoStack.dropLast.filterMap delPageIndex? ++ [p] := by
        conv_lhs => rw [hdec]
        rw [List.filterMap_append]
        rfl
      have hpfm : ¬ p ∈ s.undoStack.dropLast.filterMap delPageIndex? := by
        intro hmem
        rw [hfm, List.nodup_append] at hu_nd
        exact hu_nd.2.2 hmem (by simp)
      refine ⟨?_, ?_, ?_, ?_, ?_, ?_, ?_, ?_, ?_, ?_⟩
      · exact spliceInsert_nodup _ _ _ ho_nd hnotord
      · intro i
        show i ∈ spliceInsert p p s.pageOrder ↔
          i < s.numPages ∧ ¬ i ∈ setDelete s.deletedPages p
        rw [mem_spliceInsert, mem_setDelete _ _ _ hd_nd]
        by_cases hip : i = p
        · subst hip
          simp [hpN]
        · rw [ho_mem i]
          constructor
          · rintro (h1 | h1)
            · exact absurd h1 hip
            · exact ⟨h1.1, fun hc => h1.2 hc.1⟩
          · rintro ⟨h1, h2⟩
            exact Or.inr ⟨h1, fun hc => h2 ⟨hc, hip⟩⟩
      · exact setDelete_nodup _ _ hd_nd
      · intro q hq
        exact hd_lt q ((mem_setDelete _ _ _ hd_nd).mp hq).1
      · intro o ho q hq
        have hqdel : q ∈ s.deletedPages :=
          hu_del o ((List.dropLast_sublist _).mem ho) q hq
        have hqp : ¬ q = p := by
          intro hqp
          subst hqp
          exact hpfm (List.mem_filterMap.mpr ⟨o, ho, hq⟩)
        exact (mem_setDelete _ _ _ hd_nd).mpr ⟨hqdel, hqp⟩
      · intro o ho q hq
        rcases List.mem_append.mp ho with h1 | h1
        · obtain ⟨hqN, hqd⟩ := hr_del o h1 q hq
          exact ⟨hqN, fun hc => hqd ((mem_setDelete _ _ _ hd_nd).mp hc).1⟩
        · simp only [List.mem_singleton] at h1
          subst h1
          simp only [delPageIndex?, Option.some.injEq] at hq
          subst hq
          refine ⟨hpN, fun hc => ?_⟩
          exact ((mem_setDelete _ _ _ hd_nd).mp hc).2 rfl
      · exact ((List.dropLast_sublist _).filterMap _).nodup hu_nd
      · rw [List.filterMap_append]
        simp only [List.filterMap_cons, List.filterMap_nil, delPageIndex?]
        rw [List.nodup_append]
        refine ⟨hr_nd, by simp, ?_⟩
        intro q hq
        simp only [List.mem_singleton]
        intro hqp
        obtain ⟨o, ho, hoq⟩ := List.mem_filterMap.mp hq
        exact (hr_del o ho q hoq).2 (hqp.symm ▸ hp)
      · show stackBoundsUndo s.undoStack.dropLast.reverse
          (spliceInsert p p s.pageOrder).length
        have hrev : s.undoStack.reverse =
            Operation.delete_page oid ts p :: s.undoStack.dropLast.reverse := by
          conv_lhs => rw [hdec]
          rw [List.reverse_append]
          simp
        rw [hrev] at hu_b
        rw [length_spliceInsert]
        exact hu_b
      · show stackBoundsRedo ((s.redoStack ++
          [Operation.delete_page oid ts p]).reverse)
          (spliceInsert p p s.pageOrder).length
        rw [List.reverse_append, length_spliceInsert]
        have : stackBoundsRedo
            (Operation.delete_page oid ts p :: s.redoStack.reverse)
            (s.pageOrder.length + 1) := by
          show stackBoundsRedo s.redoStack.reverse (s.pageOrder.length + 1 - 1)
          simpa using hr_b
        simpa using this
    | reorder_pages oid ts f t =>
      obtain ⟨ho_nd, ho_mem, hd_nd, hd_lt, hu_del, hr_del, hu_nd, hr_nd,
        hu_b, hr_b⟩ := hi
      have hrev : s.undoStack.reverse =
          Operation.reorder_pages oid ts f t :: s.undoStack.dropLast.reverse := by
        conv_lhs => rw [hdec]
        rw [List.reverse_append]
        simp
      rw [hrev] at hu_b
      obtain ⟨hf, ht, hrest⟩ := hu_b
      have hperm := jsMove_perm t f s.pageOrder ht
      have hlen := jsMove_length t f s.pageOrder ht
      refine ⟨?_, ?_, hd_nd, hd_lt, ?_, ?_, ?_, ?_, ?_, ?_⟩
      · exact hperm.nodup_iff.mpr ho_nd
      · intro i
        show i ∈ jsMove t f s.pageOrder ↔ _
        rw [hperm.mem_iff]
        exact ho_mem i
      · intro o ho q hq
        exact hu_del o ((List.dropLast_sublist _).mem ho) q hq
      · intro o ho q hq
        rcases List.mem_append.mp ho with h1 | h1
        · exact hr_del o h1 q hq
        · simp only [List.mem_singleton] at h1
          subst h1
          exact absurd hq (by simp [delPageIndex?])
      · exact ((List.dropLast_sublist _).filterMap _).nodup hu_nd
      · rw [List.filterMap_append]
        simp only [List.filterMap_cons, List.filterMap_nil, delPageIndex?]
        simpa using hr_nd
      · show stackBoundsUndo s.undoStack.dropLast.reverse
          (jsMove t f s.pageOrder).length
        rw [hlen]
        exact hrest
      · show stackBoundsRedo ((s.redoStack ++
          [Operation.reorder_pages oid ts f t]).reverse)
          (jsMove t f s.pageOrder).length
        rw [List.reverse_append, hlen]
        simpa using ⟨hf, ht, hr_b⟩

/-- The invariant is preserved by `redo`. -/
theorem inv_redo (s : EditorState) (hi : Inv s) : Inv (redo s) := by
  cases hpop : s.redoStack.getLast? with
  | none =>
    rw [show redo s = s by unfold redo; rw [hpop]]
    exact hi
  | some op =>
    have hredo : redo s = { redoOp op s with
        undoStack := s.undoStack ++ [op]
        redoStack := s.redoStack.dropLast } := by
      unfold redo
      rw [hpop]
    rw [hredo]
    obtain ⟨hdec, hopmem⟩ := getLast?_decomp _ _ hpop
    cases op with
    | add_annotation oid ts a =>
      exact inv_redo_frame s _ _ hi hpop rfl rfl rfl rfl rfl rfl
        (fun _ _ => rfl) (fun _ _ => rfl)
    | delete_annotation oid ts a =>
      exact inv_redo_frame s _ _ hi hpop rfl rfl rfl rfl rfl rfl
        (fun _ _ => rfl) (fun _ _ => rfl)
    | rotate_page oid ts p rot prevR =>
      exact inv_redo_frame s _ _ hi hpop rfl rfl rfl rfl rfl rfl
        (fun _ _ => rfl) (fun _ _ => rfl)
    | update_annotation oid ts aid ch prev =>
      refine inv_redo_frame s _ _ hi hpop ?_ ?_ ?_ rfl rfl rfl
        (fun _ _ => rfl) (fun _ _ => rfl)
      · show (redoOp ( Operation.update_annotation oid ts aid ch prev)
          s).numPages = s.numPages
        simp only [redoOp]
        split <;> rfl
      · show (redoOp ( Operation.update_annotation oid ts aid ch prev)
          s).deletedPages = s.deletedPages
        simp only [redoOp]
        split <;> rfl
      · show (redoOp ( Operation.update_annotation oid ts aid ch prev)
          s).pageOrder = s.pageOrder
        simp only [redoOp]
        split <;> rfl
    | delete_page oid ts p =>
      obtain ⟨ho_nd, ho_mem, hd_nd, hd_lt, hu_del, hr_del, hu_nd, hr_nd,
        hu_b, hr_b⟩ := hi
      obtain ⟨hpN, hpdel⟩ := hr_del _ hopmem p rfl
      have hmem : p ∈ s.pageOrder := (ho_mem p).mpr ⟨hpN, hpdel⟩
      have hlen1 : 1 ≤ s.pageOrder.length := by
        cases hord : s.pageOrder with
        | nil => rw [hord] at hmem; simp at hmem
        | cons x xs => simp [hord]
      have hfm : s.redoStack.filterMap delPageIndex? =
          s.redoStack.dropLast.filterMap delPageIndex? ++ [p] := by
        conv_lhs => rw [hdec]
        rw [List.filterMap_append]
        rfl
      have hpfm : ¬ p ∈ s.redoStack.dropLast.filterMap delPageIndex? := by
        intro hm
        rw [hfm, List.nodup_append] at hr_nd
        exact hr_nd.2.2 hm (by simp)
      refine ⟨?_, ?_, ?_, ?_, ?_, ?_, ?_, ?_, ?_, ?_⟩
      · exact (List.filter_sublist _).nodup ho_nd
      · intro i
        show i ∈ s.pageOrder.filter (fun i => ¬ i = p) ↔
          i < s.numPages ∧ ¬ i ∈ setAdd s.deletedPages p
        rw [List.mem_filter, ho_mem i, mem_setAdd]
        constructor
        · rintro ⟨⟨h1, h2⟩, h3⟩
          simp only [decide_eq_true_eq] at h3
          exact ⟨h1, by tauto⟩
        · rintro ⟨h1, h2⟩
          push_neg at h2
          exact ⟨⟨h1, h2.1⟩, by simpa using h2.2⟩
      · exact setAdd_nodup _ _ hd_nd
      · intro q hq
        rcases (mem_setAdd _ _ _).mp hq with h1 | h1
        · exact hd_lt q h1
        · subst h1; exact hpN
      · intro o ho q hq
        rcases List.mem_append.mp ho with h1 | h1
        · exact (mem_setAdd _ _ _).mpr (Or.inl (hu_del o h1 q hq))
        · simp only [List.mem_singleton] at h1
          subst h1
          simp only [delPageIndex?, Option.some.injEq] at hq
          subst hq
          exact (mem_setAdd _ _ _).mpr (Or.inr rfl)
      · intro o ho q hq
        have h1 := hr_del o ((List.dropLast_sublist _).mem ho) q hq
        refine ⟨h1.1, fun hc => ?_⟩
        rcases (mem_setAdd _ _ _).mp hc with h2 | h2
        · exact h1.2 h2
        · subst h2
          exact hpfm (List.mem_filterMap.mpr ⟨o, ho, hq⟩)
      · rw [List.filterMap_append]
        simp only [List.filterMap_cons, List.filterMap_nil, delPageIndex?]
        rw [List.nodup_append]
        refine ⟨hu_nd, by simp, ?_⟩
        intro q hq
        simp only [List.mem_singleton]
        intro hqp
        obtain ⟨o, ho, hoq⟩ := List.mem_filterMap.mp hq
        exact hpdel (hqp ▸ hu_del o ho q hoq)
      · exact ((List.dropLast_sublist _).filterMap _).nodup hr_nd
      · show stackBoundsUndo ((s.undoStack ++
          [Operation.delete_page oid ts p]).reverse)
          (s.pageOrder.filter fun i => ¬ i = p).length
        rw [List.reverse_append, length_filter_ne_of_mem _ _ hmem ho_nd]
        have hb : stackBoundsUndo
            (Operation.delete_page oid ts p :: s.undoStack.reverse)
            (s.pageOrder.length - 1) := by
          show stackBoundsUndo s.undoStack.reverse (s.pageOrder.length - 1 + 1)
          rw [Nat.sub_add_cancel hlen1]
          exact hu_b
        simpa using hb
      · show stackBoundsRedo s.redoStack.dropLast.reverse
          (s.pageOrder.filter fun i => ¬ i = p).length
        have hrev : s.redoStack.reverse =
            Operation.delete_page oid ts p :: s.redoStack.dropLast.reverse := by
          conv_lhs => rw [hdec]
          rw [List.reverse_append]
          simp
        rw [hrev] at hr_b
        rw [length_filter_ne_of_mem _ _ hmem ho_nd]
        exact hr_b
    | reorder_pages oid ts f t =>
      obtain ⟨ho_nd, ho_mem, hd_nd, hd_lt, hu_del, hr_del, hu_nd, hr_nd,
        hu_b, hr_b⟩ := hi
      have hrev : s.redoStack.reverse =
          Operation.reorder_pages oid ts f t :: s.redoStack.dropLast.reverse := by
        conv_lhs => rw [hdec]
        rw [List.reverse_append]
        simp
      rw [hrev] at hr_b
      obtain ⟨hf, ht, hrest⟩ := hr_b
      have hperm := jsMove_perm f t s.pageOrder hf
      have hlen := jsMove_length f t s.pageOrder hf
      refine ⟨?_, ?_, hd_nd, hd_lt, ?_, ?_, ?_, ?_, ?_, ?_⟩
      · exact hperm.nodup_iff.mpr ho_nd
      · intro i
        show i ∈ jsMove f t s.pageOrder ↔ _
        rw [hperm.mem_iff]
        exact ho_mem i
      · intro o ho q hq
        rcases List.mem_append.mp ho with h1 | h1
        · exact hu_del o h1 q hq
        · simp only [List.mem_singleton] at h1
          subst h1
          exact absurd hq (by simp [delPageIndex?])
      · intro o ho q hq
        exact hr_del o ((List.dropLast_sublist _).mem ho) q hq
      · rw [List.filterMap_append]
        simp only [List.filterMap_cons, List.filterMap_nil, delPageIndex?]
        simpa using hu_nd
      · exact ((List.dropLast_sublist _).filterMap _).nodup hr_nd
      · show stackBoundsUndo ((s.undoStack ++
          [Operation.reorder_pages oid ts f t]).reverse)
          (jsMove f t s.pageOrder).length
        rw [List.reverse_append, hlen]
        simpa using ⟨hf, ht, hu_b⟩
      · show stackBoundsRedo s.redoStack.dropLast.reverse
          (jsMove f t s.pageOrder).length
        rw [hlen]
        exact hrest

/-- The invariant holds at a freshly loaded document. -/
theorem inv_loadDocument (numPages : Nat) : Inv (loadDocument numPages) := by
  refine ⟨?_, ?_, by simp [loadDocument], by simp [loadDocument],
    ?_, ?_, by simp [loadDocument], by simp [loadDocument], ?_, ?_⟩
  · show (List.range numPages).Nodup
    exact List.nodup_range numPages
  · intro i
    show i ∈ List.range numPages ↔ i < numPages ∧ ¬ i ∈ ([] : List Nat)
    simp
  · intro o ho
    exact absurd ho (List.not_mem_nil o)
  · intro o ho
    exact absurd ho (List.not_mem_nil o)
  · show stackBoundsUndo (List.reverse []) (List.range numPages).length
    simp [stackBoundsUndo]
  · show stackBoundsRedo (List.reverse []) (List.range numPages).length
    simp [stackBoundsRedo]

/-- Every reachable state satisfies the invariant; in particular the
out-of-range branch of `jsMove` is never exercised from a reachable state
(every pending `reorder_pages` entry's indices stay within the display-order
length that will be current when it is popped). -/
theorem inv_reachable (numPages : Nat) (s : EditorState)
    (h : Reachable numPages s) : Inv s := by
  induction h with
  | refl => exact inv_loadDocument numPages
  | tail _ hstep ih =>
    cases hstep
    case call => exact inv_call _ _ _ _ ih (by assumption)
    case undo => exact inv_undo _ ih
    case redo => exact inv_redo _ ih

/-- C6: in every state reachable from a freshly loaded document through
valid mutator calls (deletePage on a page currently in the display order,
reorderPages with in-range indices), undos and redos, the display order's
length equals numPages minus the number of deleted pages, and the display
order is a duplicate-free, omission-free permutation of the original page
indices {0..numPages-1} minus the deleted pages. The validity restriction
is necessary: the store itself does not validate deletePage's page index
(see the counterexample). -/
theorem claim_C6_display_order_invariant (numPages : Nat) (s : EditorState)
    (h : Reachable numPages s) :
    s.pageOrder.length = s.numPages - s.deletedPages.length ∧
      List.Perm s.pageOrder
        ((List.range s.numPages).filter fun i => ¬ i ∈ s.deletedPages) := by
  obtain ⟨ho_nd, ho_mem, hd_nd, hd_lt, _, _, _, _, _, _⟩ :=
    inv_reachable numPages s h
  have hperm : List.Perm s.pageOrder
      ((List.range s.numPages).filter fun i => ¬ i ∈ s.deletedPages) := by
    rw [List.perm_ext_iff_of_nodup ho_nd
      (List.Nodup.filter _ (List.nodup_range _))]
    intro a
    rw [List.mem_filter, List.mem_range, ho_mem a]
    simp
  refine ⟨?_, hperm⟩
  have hdel : List.Perm
      ((List.range s.numPages).filter fun i => i ∈ s.deletedPages)
      s.deletedPages := by
    rw [List.perm_ext_iff_of_nodup
      (List.Nodup.filter _ (List.nodup_range _)) hd_nd]
    intro a
    rw [List.mem_filter, List.mem_range]
    constructor
    · rintro ⟨_, h2⟩
      simpa using h2
    · intro ha
      exact ⟨hd_lt a ha, by simpa using ha⟩
  have hsplit :=
    @List.length_eq_length_filter_add Nat (List.range s.numPages)
      (fun i => decide (i ∈ s.deletedPages))
  have hnotconv : (List.range s.numPages).filter
        (fun i => !(decide (i ∈ s.deletedPages))) =
      (List.range s.numPages).filter fun i => ¬ i ∈ s.deletedPages := by
    apply List.filter_congr
    intro a _
    simp
  rw [hnotconv, hdel.length_eq, ← hperm.length_eq, List.length_range] at hsplit
  omega

/-- C6 counterexample: the unrestricted claim quantifies over arbitrary
calls of the public operations, but `deletePage` does not validate its page
index. Deleting the out-of-range page 7 of a freshly loaded 2-page document
leaves the display order at length 2 while recording a deleted page, so
`pageOrder.length = numPages - deletedPages.size` fails (2 ≠ 2 - 1). -/
theorem claim_C6_counterexample :
    ¬ ((deletePage 7 "x" 0 (loadDocument 2)).pageOrder.length =
        (deletePage 7 "x" 0 (loadDocument 2)).numPages -
          (deletePage 7 "x" 0 (loadDocument 2)).deletedPages.length) := by
  decide

/-- Witness for C6: one valid deletePage call from a 2-page document is a
reachable state, and there the invariant evaluates as claimed. -/
theorem claim_C6_display_order_invariant_witness :
    Reachable 2 (applyCall (MutCall.delPage 0) "x" 0 (loadDocument 2)) ∧
      ((applyCall (MutCall.delPage 0) "x" 0 (loadDocument 2)).pageOrder.length =
          (applyCall (MutCall.delPage 0) "x" 0 (loadDocument 2)).numPages -
            (applyCall (MutCall.delPage 0) "x" 0
              (loadDocument 2)).deletedPages.length ∧
        List.Perm
          (applyCall (MutCall.delPage 0) "x" 0 (loadDocument 2)).pageOrder
          ((List.range
              (applyCall (MutCall.delPage 0) "x" 0
                (loadDocument 2)).numPages).filter
            fun i => ¬ i ∈ (applyCall (MutCall.delPage 0) "x" 0
              (loadDocument 2)).deletedPages)) := by
  have hreach :
      Reachable 2 (applyCall (MutCall.delPage 0) "x" 0 (loadDocument 2)) :=
    Relation.ReflTransGen.tail Relation.ReflTransGen.refl
      (Step.call (MutCall.delPage 0) "x" 0 (loadDocument 2)
        (by unfold ValidCall; decide))
  exact ⟨hreach, claim_C6_display_order_invariant 2 _ hreach⟩

/-! ## Export lemmas (C4, C10) -/

theorem insertDesc_perm (x : Nat) (l : List Nat) :
    List.Perm (insertDesc x l) (x :: l) := by
  induction l with
  | nil => exact List.Perm.refl _
  | cons y ys ih =>
    unfold insertDesc
    split
    · exact List.Perm.refl _
    · exact (ih.cons y).trans (List.Perm.swap x y ys)

theorem sortDescNat_perm (l : List Nat) : List.Perm (sortDescNat l) l := by
  induction l with
  | nil => exact List.Perm.refl _
  | cons x xs ih =>
    show List.Perm (insertDesc x (sortDescNat xs)) (x :: xs)
    exact (insertDesc_perm x (sortDescNat xs)).trans (ih.cons x)

theorem insertDesc_sorted (x : Nat) (l : List Nat)
    (h : l.Pairwise fun a b => b ≤ a) :
    (insertDesc x l).Pairwise fun a b => b ≤ a := by
  induction l with
  | nil => simp [insertDesc]
  | cons y ys ih =>
    rw [List.pairwise_cons] at h
    unfold insertDesc
    split
    case isTrue hyx =>
      rw [List.pairwise_cons]
      refine ⟨?_, List.pairwise_cons.mpr h⟩
      intro z hz
      rcases List.mem_cons.mp hz with rfl | hz'
      · exact hyx
      · exact le_trans (h.1 z hz') hyx
    case isFalse hyx =>
      rw [List.pairwise_cons]
      refine ⟨?_, ih h.2⟩
      intro z hz
      rcases List.mem_cons.mp ((insertDesc_perm x ys).mem_iff.mp hz) with
        rfl | hz'
      · exact Nat.le_of_lt (Nat.lt_of_not_le hyx)
      · exact h.1 z hz'

theorem sortDescNat_sorted (l : List Nat) :
    (sortDescNat l).Pairwise fun a b => b ≤ a := by
  induction l with
  | nil => simp [sortDescNat]
  | cons x xs ih => exact insertDesc_sorted x (sortDescNat xs) ih

theorem sortDescNat_strict (l : List Nat) (h : l.Nodup) :
    (sortDescNat l).Pairwise fun a b => b < a := by
  have hnd : (sortDescNat l).Nodup := (sortDescNat_perm l).nodup_iff.mpr h
  have hs := sortDescNat_sorted l
  exact (hs.and hnd).imp fun hab => Nat.lt_of_le_of_ne hab.1 (Ne.symm hab.2)

theorem insertAsc_perm (x : Nat) (l : List Nat) :
    List.Perm (insertAsc x l) (x :: l) := by
  induction l with
  | nil => exact List.Perm.refl _
  | cons y ys ih =>
    unfold insertAsc
    split
    · exact List.Perm.refl _
    · exact (ih.cons y).trans (List.Perm.swap x y ys)

theorem sortAscNat_perm (l : List Nat) : List.Perm (sortAscNat l) l := by
  induction l with
  | nil => exact List.Perm.refl _
  | cons x xs ih =>
    show List.Perm (insertAsc x (sortAscNat xs)) (x :: xs)
    exact (insertAsc_perm x (sortAscNat xs)).trans (ih.cons x)

theorem removePagesLoop_cons (l : List Nat) (d : Nat) (D : List Nat) :
    removePagesLoop l (d :: D) =
      removePagesLoop (l.take d ++ l.drop (d + 1)) D := rfl

theorem removePagesLoop_append (P S D : List Nat)
    (hd : D.Pairwise fun a b => b < a) (hlt : ∀ e ∈ D, e < P.length) :
    removePagesLoop (P ++ S) D = removePagesLoop P D ++ S := by
  induction D generalizing P with
  | nil => rfl
  | cons d D' ih =>
    rw [List.pairwise_cons] at hd
    have hdP : d < P.length := hlt d (List.mem_cons_self d D')
    rw [removePagesLoop_cons, removePagesLoop_cons,
      List.take_append_of_le_length (Nat.le_of_lt hdP),
      List.drop_append_of_le_length hdP, ← List.append_assoc]
    have hlen : (P.take d ++ P.drop (d + 1)).length = P.length - 1 := by
      simp only [List.length_append, List.length_take, List.length_drop]
      omega
    refine ih _ hd.2 ?_
    intro e he
    rw [hlen]
    have := hd.1 e he
    omega

theorem drop_range_eq (n i : Nat) :
    (List.range n).drop i = List.range' i (n - i) := by
  by_cases h : i ≤ n
  · have h3 : (n - i) + i = n := by omega
    have hsplit : List.range n = List.range' 0 i ++ List.range' i (n - i) := by
      calc List.range n = List.range' 0 ((n - i) + i) := by
            rw [h3, List.range_eq_range']
        _ = List.range' 0 i ++ List.range' (0 + i) (n - i) :=
            (List.range'_append_1 0 i (n - i)).symm
        _ = List.range' 0 i ++ List.range' i (n - i) := by rw [Nat.zero_add]
    rw [hsplit, List.drop_left' (by simp)]
  · rw [List.drop_eq_nil_of_le (by simp; omega)]
    have h0 : n - i = 0 := by omega
    rw [h0]
    rfl

theorem removePagesLoop_range_filter (N : Nat) (D : List Nat)
    (hd : D.Pairwise fun a b => b < a) (hlt : ∀ e ∈ D, e < N) :
    removePagesLoop (List.range N) D =
      (List.range N).filter fun i => ¬ i ∈ D := by
  induction D generalizing N with
  | nil =>
    exact (List.filter_eq_self.mpr fun a _ => by simp).symm
  | cons d D' ih =>
    rw [List.pairwise_cons] at hd
    have hdN : d < N := hlt d (List.mem_cons_self d D')
    rw [removePagesLoop_cons, List.take_range,
      Nat.min_eq_left (Nat.le_of_lt hdN), drop_range_eq]
    rw [removePagesLoop_append _ _ _ hd.2
      (by intro e he; rw [List.length_range]; exact hd.1 e he)]
    rw [ih d hd.2 hd.1]
    have hsplit : List.range N =
        (List.range d ++ [d]) ++ List.range' (d + 1) (N - (d + 1)) := by
      have h3 : (N - (d + 1)) + (d + 1) = N := by omega
      calc List.range N = List.range' 0 ((N - (d + 1)) + (d + 1)) := by
            rw [h3, List.range_eq_range']
        _ = List.range' 0 (d + 1) ++
              List.range' (0 + (d + 1)) (N - (d + 1)) :=
            (List.range'_append_1 _ _ _).symm
        _ = (List.range d ++ [d]) ++ List.range' (d + 1) (N - (d + 1)) := by
            rw [Nat.zero_add, ← List.range_eq_range', List.range_succ]
    conv_rhs => rw [hsplit]
    rw [List.filter_append, List.filter_append]
    have h1 : (List.range d).filter (fun i => ¬ i ∈ d :: D') =
        (List.range d).filter fun i => ¬ i ∈ D' := by
      apply List.filter_congr
      intro a ha
      rw [List.mem_range] at ha
      simp only [List.mem_cons, decide_eq_decide]
      constructor
      · intro h hc
        exact h (Or.inr hc)
      · rintro h (rfl | hc)
        · omega
        · exact h hc
    have h2 : List.filter (fun i => ¬ i ∈ d :: D') [d] = [] := by
      simp
    have h3 : (List.range' (d + 1) (N - (d + 1))).filter
        (fun i => ¬ i ∈ d :: D') = List.range' (d + 1) (N - (d + 1)) := by
      apply List.filter_eq_self.mpr
      intro a ha
      rw [List.mem_range'_1] at ha
      simp only [List.mem_cons, decide_eq_true_eq]
      push_neg
      constructor
      · omega
      · intro hc
        have := hd.1 a hc
        omega
    rw [h1, h2, h3, List.append_nil]

theorem length_filter_not_mem_range (N : Nat) (D : List Nat) (hD : D.Nodup)
    (hlt : ∀ d ∈ D, d < N) :
    ((List.range N).filter fun i => ¬ i ∈ D).length = N - D.length := by
  have hdel : List.Perm ((List.range N).filter fun i => i ∈ D) D := by
    rw [List.perm_ext_iff_of_nodup
      (List.Nodup.filter _ (List.nodup_range _)) hD]
    intro a
    rw [List.mem_filter, List.mem_range]
    constructor
    · rintro ⟨_, h2⟩
      simpa using h2
    · intro ha
      exact ⟨hlt a ha, by simpa using ha⟩
  have hsplit :=
    @List.length_eq_length_filter_add Nat (List.range N)
      (fun i => decide (i ∈ D))
  have hnotconv : (List.range N).filter (fun i => !(decide (i ∈ D))) =
      (List.range N).filter fun i => ¬ i ∈ D := by
    apply List.filter_congr
    intro a _
    simp
  rw [hnotconv, hdel.length_eq, List.length_range] at hsplit
  omega

theorem remaining_eq (N : Nat) (D : List Nat) (hD : D.Nodup)
    (hlt : ∀ d ∈ D, d < N) :
    remainingAfterDeletion N D = (List.range N).filter fun i => ¬ i ∈ D := by
  unfold remainingAfterDeletion
  have hfl : D.filter (fun i => i < N) = D :=
    List.filter_eq_self.mpr fun a ha => by simpa using hlt a ha
  rw [hfl]
  have hnd : (sortDescNat D).Pairwise fun a b => b < a :=
    sortDescNat_strict D hD
  rw [removePagesLoop_range_filter N _ hnd
    (fun e he => hlt e ((sortDescNat_perm D).mem_iff.mp he))]
  apply List.filter_congr
  intro a _
  simp only [decide_eq_decide]
  rw [(sortDescNat_perm D).mem_iff]

theorem foldl_dec_count (p : Nat) (L : List Nat) (acc : Int) :
    L.foldl (fun acc d => if d < p then acc - 1 else acc) acc =
      acc - ((L.filter fun d => d < p).length : Int) := by
  induction L generalizing acc with
  | nil => simp
  | cons d L' ih =>
    rw [List.foldl_cons]
    by_cases hdp : d < p
    · rw [if_pos hdp, ih, List.filter_cons_of_pos (by simpa using hdp)]
      simp only [List.length_cons]
      push_cast
      ring
    · rw [if_neg hdp, ih, List.filter_cons_of_neg (by simpa using hdp)]

theorem adjustedIndexOf_spec (D : List Nat) (p : Nat) :
    adjustedIndexOf D p =
      (p : Int) - ((D.filter fun d => d < p).length : Int) := by
  unfold adjustedIndexOf
  rw [foldl_dec_count]
  congr 2
  exact ((sortAscNat_perm D).filter _).length_eq

theorem count_lt_le (D : List Nat) (p : Nat) (hD : D.Nodup) :
    (D.filter fun d => d < p).length ≤ p := by
  have hsub : List.Subperm (D.filter fun d => d < p) (List.range p) := by
    apply List.Nodup.subperm (hD.filter _)
    intro a ha
    rw [List.mem_range]
    have := List.of_mem_filter ha
    simpa using this
  simpa using hsub.length_le

theorem count_ge_le (D : List Nat) (p N : Nat) (hD : D.Nodup)
    (hlt : ∀ d ∈ D, d < N) (hp : p < N) (hpD : ¬ p ∈ D) :
    (D.filter fun d => ¬ d < p).length ≤ N - p - 1 := by
  have hsub : List.Subperm (D.filter fun d => ¬ d < p)
      (List.range' (p + 1) (N - p - 1)) := by
    apply List.Nodup.subperm (hD.filter _)
    intro a ha
    have hmem' := List.mem_of_mem_filter ha
    have hge : ¬ a < p := by simpa using List.of_mem_filter ha
    have haN := hlt a hmem'
    have hap : ¬ a = p := fun hc => hpD (hc ▸ hmem')
    rw [List.mem_range'_1]
    omega
  simpa using hsub.length_le

theorem count_partition (D : List Nat) (p : Nat) :
    D.length = (D.filter fun d => d < p).length +
      (D.filter fun d => ¬ d < p).length := by
  have hsplit :=
    @List.length_eq_length_filter_add Nat D (fun d => decide (d < p))
  have hnotconv : D.filter (fun d => !(decide (d < p))) =
      D.filter fun d => ¬ d < p := by
    apply List.filter_congr
    intro a _
    rw [← decide_not, decide_eq_decide]
  rw [hnotconv] at hsplit
  exact hsplit

theorem drawTargets_cons_deleted (a : Annotation) (t : List Annotation)
    (D : List Nat) (R : Nat) (h : a.pageIndex ∈ D) :
    drawTargets (a :: t) D R = drawTargets t D R := by
  unfold drawTargets
  exact List.filterMap_cons_none (by simp [h])

theorem drawTargets_cons_kept (a : Annotation) (t : List Annotation)
    (D : List Nat) (R : Nat) (h : ¬ a.pageIndex ∈ D)
    (hguard : ¬ (adjustedIndexOf D a.pageIndex < 0 ∨
      (R : Int) ≤ adjustedIndexOf D a.pageIndex)) :
    drawTargets (a :: t) D R =
      ((adjustedIndexOf D a.pageIndex).toNat, a) :: drawTargets t D R := by
  unfold drawTargets
  exact List.filterMap_cons_some (by simp only [if_neg h, if_neg hguard])

theorem drawTargets_eq (anns : List Annotation) (D : List Nat) (N : Nat)
    (hD : D.Nodup) (hlt : ∀ d ∈ D, d < N)
    (hA : ∀ a ∈ anns, a.pageIndex < N) :
    drawTargets anns D (N - D.length) =
      (anns.filter fun a => ¬ a.pageIndex ∈ D).map
        fun a => (a.pageIndex -
          (D.filter fun d => d < a.pageIndex).length, a) := by
  induction anns with
  | nil => rfl
  | cons a t ih =>
    have hA' : ∀ x ∈ t, x.pageIndex < N :=
      fun x hx => hA x (List.mem_cons_of_mem a hx)
    have haN : a.pageIndex < N := hA a (List.mem_cons_self a t)
    by_cases hmem' : a.pageIndex ∈ D
    · rw [drawTargets_cons_deleted a t D _ hmem',
        List.filter_cons_of_neg (by simpa using hmem')]
      exact ih hA'
    · have hspec := adjustedIndexOf_spec D a.pageIndex
      have hc1 := count_lt_le D a.pageIndex hD
      have hc2 := count_ge_le D a.pageIndex N hD hlt haN hmem'
      have hpart := count_partition D a.pageIndex
      have hguard : ¬ (adjustedIndexOf D a.pageIndex < 0 ∨
          ((N - D.length : Nat) : Int) ≤ adjustedIndexOf D a.pageIndex) := by
        rw [hspec]
        omega
      have hval : (adjustedIndexOf D a.pageIndex).toNat =
          a.pageIndex - (D.filter fun d => d < a.pageIndex).length := by
        rw [hspec]
        omega
      rw [drawTargets_cons_kept a t D _ hmem' hguard, hval,
        List.filter_cons_of_pos (by simpa using hmem'), List.map_cons,
        ih hA']

theorem exportTargets_eq (numPages : Nat) (annotations : List Annotation)
    (pageRotations : List (Nat × Int)) (pageOrder deletedPages : List Nat)
    (hD : deletedPages.Nodup) (hDlt : ∀ d ∈ deletedPages, d < numPages)
    (hA : ∀ a ∈ annotations, a.pageIndex < numPages) :
    (exportPDF numPages annotations pageRotations pageOrder deletedPages).2 =
      (annotations.filter fun a => ¬ a.pageIndex ∈ deletedPages).map
        fun a => (a.pageIndex -
          (deletedPages.filter fun d => d < a.pageIndex).length, a) := by
  show drawTargets annotations deletedPages
      (remainingAfterDeletion numPages deletedPages).length = _
  rw [remaining_eq numPages deletedPages hD hDlt,
    length_filter_not_mem_range numPages deletedPages hD hDlt]
  exact drawTargets_eq annotations deletedPages numPages hD hDlt hA

/-- C4: export drops exactly the annotations whose `pageIndex` is deleted,
and draws every survivor, in the original relative order, on the output page
`pageIndex` minus the number of deleted pages with smaller index.  The
hypotheses record that the deleted-page set is a set of in-range pages and
that every annotation lies on a page of the document, as the store
guarantees. -/
theorem claim_C4_annotation_page_remapping (numPages : Nat)
    (annotations : List Annotation) (pageRotations : List (Nat × Int))
    (pageOrder deletedPages : List Nat)
    (hD : deletedPages.Nodup) (hDlt : ∀ d ∈ deletedPages, d < numPages)
    (hA : ∀ a ∈ annotations, a.pageIndex < numPages) :
    (exportPDF numPages annotations pageRotations pageOrder deletedPages).2 =
      (annotations.filter fun a => ¬ a.pageIndex ∈ deletedPages).map
        fun a => (a.pageIndex -
          (deletedPages.filter fun d => d < a.pageIndex).length, a) :=
  exportTargets_eq numPages annotations pageRotations pageOrder deletedPages
    hD hDlt hA

/-- Witness for C4: the spec's own scenario — an annotation on page 2 of a
3-page document, `DeletePage(0)` — is drawn on output page 1 while keeping
`pageIndex = 2`. -/
theorem claim_C4_annotation_page_remapping_witness :
    ([0] : List Nat).Nodup ∧ (∀ d ∈ ([0] : List Nat), d < 3) ∧
      (∀ a ∈ [fixtureHighlight], a.pageIndex < 3) ∧
      (exportPDF 3 [fixtureHighlight] [] [] [0]).2 =
        (([fixtureHighlight].filter
            fun a => ¬ a.pageIndex ∈ ([0] : List Nat)).map
          fun a => (a.pageIndex -
            (([0] : List Nat).filter fun d => d < a.pageIndex).length, a)) :=
  ⟨by decide, by decide, by decide,
    claim_C4_annotation_page_remapping 3 [fixtureHighlight] [] [] [0]
      (by decide) (by decide) (by decide)⟩

/-! ## Colour parsing (C10) -/

theorem hexMatchCore_eq_none_iff (cs : List Char) :
    hexMatchCore cs = none ↔
      ¬ (cs.length = 6 ∧ cs.all isHexDigitChar) := by
  match cs with
  | [] => simp [hexMatchCore]
  | [a] => simp [hexMatchCore]
  | [a, b] => simp [hexMatchCore]
  | [a, b, c] => simp [hexMatchCore]
  | [a, b, c, d] => simp [hexMatchCore]
  | [a, b, c, d, e] => simp [hexMatchCore]
  | [a, b, c, d, e, f] =>
    by_cases h : isHexDigitChar a ∧ isHexDigitChar b ∧ isHexDigitChar c ∧
        isHexDigitChar d ∧ isHexDigitChar e ∧ isHexDigitChar f
    · obtain ⟨h1, h2, h3, h4, h5, h6⟩ := h
      simp [hexMatchCore, h1, h2, h3, h4, h5, h6]
    · simp only [hexMatchCore, if_neg h]
      simp only [List.all_cons, List.all_nil, List.length_cons,
        List.length_nil, Bool.and_true, Bool.and_eq_true, true_iff]
      intro hc
      exact h ⟨hc.2.1, hc.2.2.1, hc.2.2.2.1, hc.2.2.2.2.1, hc.2.2.2.2.2.1,
        hc.2.2.2.2.2.2⟩
  | a :: b :: c :: d :: e :: f :: g :: rest => simp [hexMatchCore]

theorem hexToRgb_malformed (s : String) (h : hexColorPattern s = false) :
    hexToRgb s = (0, 0, 0) := by
  have hnone : hexMatch s = none := by
    unfold hexMatch
    rw [hexMatchCore_eq_none_iff]
    unfold hexColorPattern at h
    exact of_decide_eq_false h
  unfold hexToRgb
  rw [hnone]

/-- C10: an annotation whose colour string does not match the optional-`#`
plus six-hex-digits pattern is totally mapped to black by `hexToRgb` (no
exception path exists), and export still draws it — in black — on its
output page. -/
theorem claim_C10_malformed_color_drawn_black (numPages : Nat)
    (annotations : List Annotation) (pageRotations : List (Nat × Int))
    (pageOrder deletedPages : List Nat) (a : Annotation)
    (hD : deletedPages.Nodup) (hDlt : ∀ d ∈ deletedPages, d < numPages)
    (hA : ∀ x ∈ annotations, x.pageIndex < numPages)
    (hmem : a ∈ annotations) (hnd : ¬ a.pageIndex ∈ deletedPages)
    (hcol : hexColorPattern a.style.color = false) :
    annotationDrawColor a = (0, 0, 0) ∧
      (a.pageIndex - (deletedPages.filter fun d => d < a.pageIndex).length, a)
        ∈ (exportPDF numPages annotations pageRotations pageOrder
            deletedPages).2 := by
  refine ⟨?_, ?_⟩
  · unfold annotationDrawColor
    exact hexToRgb_malformed _ hcol
  · rw [exportTargets_eq numPages annotations pageRotations pageOrder
      deletedPages hD hDlt hA]
    apply List.mem_map_of_mem
    rw [List.mem_filter]
    exact ⟨hmem, by simpa using hnd⟩

/-- Witness for C10: the fixture with colour `"red"` on page 1 of a 2-page
document with nothing deleted is drawn in black on output page 1. -/
theorem claim_C10_malformed_color_drawn_black_witness :
    ([] : List Nat).Nodup ∧ (∀ d ∈ ([] : List Nat), d < 2) ∧
      (∀ x ∈ [fixtureBadColor], x.pageIndex < 2) ∧
      fixtureBadColor ∈ [fixtureBadColor] ∧
      ¬ fixtureBadColor.pageIndex ∈ ([] : List Nat) ∧
      hexColorPattern fixtureBadColor.style.color = false ∧
      (annotationDrawColor fixtureBadColor = (0, 0, 0) ∧
        (fixtureBadColor.pageIndex -
            (([] : List Nat).filter
              fun d => d < fixtureBadColor.pageIndex).length,
          fixtureBadColor)
          ∈ (exportPDF 2 [fixtureBadColor] [] [] []).2) :=
  ⟨by decide, by decide, by decide, List.mem_singleton.mpr rfl, by decide,
    by decide,
    claim_C10_malformed_color_drawn_black 2 [fixtureBadColor] [] [] []
      fixtureBadColor (by decide) (by decide) (by decide)
      (List.mem_singleton.mpr rfl) (by decide) (by decide)⟩

/-! ## Path simplification (C9) -/

/-! ## Geometry facts -/

theorem distSq_nonneg (p q : Point) : 0 ≤ distSq p q :=
  add_nonneg (mul_self_nonneg _) (mul_self_nonneg _)

theorem distSq_self (p : Point) : distSq p p = 0 := by
  unfold distSq
  ring

theorem perpDistSq_nonneg (p a b : Point) : 0 ≤ perpDistSq p a b := by
  simp only [perpDistSq]
  split
  · exact distSq_nonneg _ _
  · exact distSq_nonneg _ _

theorem perpDistSq_start (a b : Point) : perpDistSq a a b = 0 := by
  simp only [perpDistSq]
  split
  · exact distSq_self a
  · rw [show (a.x - a.x) * (b.x - a.x) + (a.y - a.y) * (b.y - a.y) = 0 by
      ring, zero_div]
    rw [show max 0 (min 1 (0 : ℚ)) = 0 by simp]
    unfold distSq
    ring

theorem perpDistSq_end (a b : Point) : perpDistSq b a b = 0 := by
  simp only [perpDistSq]
  split
  case isTrue h =>
    obtain ⟨h1, h2⟩ := h
    have hx : b.x = a.x := by linarith
    have hy : b.y = a.y := by linarith
    unfold distSq
    rw [hx, hy]
    ring
  case isFalse h =>
    have hD : 0 < (b.x - a.x) * (b.x - a.x) + (b.y - a.y) * (b.y - a.y) := by
      rcases not_and_or.mp h with h1 | h1
      · exact add_pos_of_pos_of_nonneg (mul_self_pos.mpr h1) (mul_self_nonneg _)
      · exact add_pos_of_nonneg_of_pos (mul_self_nonneg _) (mul_self_pos.mpr h1)
    rw [div_self (ne_of_gt hD)]
    rw [show max 0 (min 1 (1 : ℚ)) = 1 by simp]
    unfold distSq
    ring_nf

/-! ## Enumeration facts -/

theorem enumFrom_append {α : Type} (n : Nat) (l₁ l₂ : List α) :
    List.enumFrom n (l₁ ++ l₂) =
      List.enumFrom n l₁ ++ List.enumFrom (n + l₁.length) l₂ := by
  induction l₁ generalizing n with
  | nil => simp
  | cons x xs ih =>
    rw [List.cons_append, List.enumFrom_cons, ih, List.enumFrom_cons,
      List.cons_append]
    rw [show n + (x :: xs).length = n + 1 + xs.length from by
      simp only [List.length_cons]
      omega]

theorem mem_enumFrom_spec {α : Type} (l : List α) (n : Nat) (e : Nat × α)
    (h : e ∈ List.enumFrom n l) : n ≤ e.1 ∧ e.1 < n + l.length ∧ e.2 ∈ l := by
  induction l generalizing n with
  | nil => simp at h
  | cons x xs ih =>
    rw [List.enumFrom_cons] at h
    rcases List.mem_cons.mp h with rfl | h'
    · refine ⟨Nat.le_refl n, ?_, List.mem_cons_self x xs⟩
      simp only [List.length_cons]
      omega
    · obtain ⟨h1, h2, h3⟩ := ih (n + 1) h'
      refine ⟨by omega, ?_, List.mem_cons_of_mem x h3⟩
      simp only [List.length_cons]
      omega

theorem enum_split_idx {α : Type} (E₁ : List (Nat × α)) :
    ∀ (n : Nat) (I : List α) (E₂ : List (Nat × α)) (e : Nat × α),
      List.enumFrom n I = E₁ ++ e :: E₂ → e.1 = n + E₁.length := by
  induction E₁ with
  | nil =>
    intro n I E₂ e h
    cases I with
    | nil => simp at h
    | cons x xs =>
      rw [List.enumFrom_cons, List.nil_append] at h
      obtain ⟨h1, _⟩ := List.cons_eq_cons.mp h
      rw [← h1]
      simp
  | cons f E₁' ih =>
    intro n I E₂ e h
    cases I with
    | nil => simp at h
    | cons x xs =>
      rw [List.enumFrom_cons, List.cons_append] at h
      obtain ⟨_, h2⟩ := List.cons_eq_cons.mp h
      have := ih (n + 1) xs E₂ e h2
      rw [this]
      simp only [List.length_cons]
      omega

theorem enum_split_snd {α : Type} (n : Nat) (I : List α)
    (E₁ E₂ : List (Nat × α)) (e : Nat × α)
    (h : List.enumFrom n I = E₁ ++ e :: E₂) :
    I = E₁.map Prod.snd ++ e.2 :: E₂.map Prod.snd := by
  have hsnd := congrArg (List.map Prod.snd) h
  rw [List.enumFrom_map_snd] at hsnd
  simpa using hsnd

/-! ## Scan loop specification -/

theorem scan_foldl_spec (first last : Point) :
    ∀ (E : List (Nat × Point)) (acc : ℚ × Nat),
      (E.foldl (scanStep first last) acc = acc ∧
        ∀ e ∈ E, perpDistSq e.2 first last ≤ acc.1) ∨
      (∃ E₁ e E₂, E = E₁ ++ e :: E₂ ∧
        E.foldl (scanStep first last) acc =
          (perpDistSq e.2 first last, e.1) ∧
        acc.1 < perpDistSq e.2 first last ∧
        (∀ x ∈ E₁, perpDistSq x.2 first last < perpDistSq e.2 first last) ∧
        (∀ x ∈ E₂, perpDistSq x.2 first last ≤ perpDistSq e.2 first last))
  | [], acc => Or.inl ⟨rfl, by simp⟩
  | e₀ :: E', acc => by
    rw [List.foldl_cons]
    by_cases h0 : perpDistSq e₀.2 first last > acc.1
    · have hstep : scanStep first last acc e₀ =
          (perpDistSq e₀.2 first last, e₀.1) := by
        unfold scanStep
        rw [if_pos h0]
      rw [hstep]
      rcases scan_foldl_spec first last E'
          (perpDistSq e₀.2 first last, e₀.1) with
        ⟨heq, hall⟩ | ⟨E₁, e, E₂, hE, heq, hacc, h₁, h₂⟩
      · right
        exact ⟨[], e₀, E', by simp, by rw [heq], h0, by simp, hall⟩
      · right
        refine ⟨e₀ :: E₁, e, E₂, by rw [hE, List.cons_append], heq, lt_trans h0 hacc, ?_, h₂⟩
        intro x hx
        rcases List.mem_cons.mp hx with rfl | hx'
        · exact hacc
        · exact h₁ x hx'
    · have hstep : scanStep first last acc e₀ = acc := by
        unfold scanStep
        rw [if_neg h0]
      rw [hstep]
      rcases scan_foldl_spec first last E' acc with
        ⟨heq, hall⟩ | ⟨E₁, e, E₂, hE, heq, hacc, h₁, h₂⟩
      · left
        refine ⟨heq, ?_⟩
        intro x hx
        rcases List.mem_cons.mp hx with rfl | hx'
        · exact le_of_not_lt h0
        · exact hall x hx'
      · right
        refine ⟨e₀ :: E₁, e, E₂, by rw [hE, List.cons_append], heq, hacc, ?_, h₂⟩
        intro x hx
        rcases List.mem_cons.mp hx with rfl | hx'
        · exact lt_of_le_of_lt (le_of_not_lt h0) hacc
        · exact h₁ x hx'

theorem foldl_scan_lt (first last : Point) (d : ℚ) :
    ∀ (E : List (Nat × Point)) (acc : ℚ × Nat),
      (∀ e ∈ E, perpDistSq e.2 first last < d) → acc.1 < d →
      (E.foldl (scanStep first last) acc).1 < d
  | [], _, _, hacc => hacc
  | e₀ :: E', acc, hE, hacc => by
    rw [List.foldl_cons]
    by_cases h0 : perpDistSq e₀.2 first last > acc.1
    · rw [show scanStep first last acc e₀ =
          (perpDistSq e₀.2 first last, e₀.1) from by
        unfold scanStep; rw [if_pos h0]]
      exact foldl_scan_lt first last d E' _
        (fun e he => hE e (List.mem_cons_of_mem _ he))
        (hE e₀ (List.mem_cons_self _ _))
    · rw [show scanStep first last acc e₀ = acc from by
        unfold scanStep; rw [if_neg h0]]
      exact foldl_scan_lt first last d E' _
        (fun e he => hE e (List.mem_cons_of_mem _ he)) hacc

theorem foldl_scan_le (first last : Point) :
    ∀ (E : List (Nat × Point)) (acc : ℚ × Nat),
      (∀ e ∈ E, perpDistSq e.2 first last ≤ acc.1) →
      E.foldl (scanStep first last) acc = acc
  | [], _, _ => rfl
  | e₀ :: E', acc, hE => by
    rw [List.foldl_cons]
    rw [show scanStep first last acc e₀ = acc from by
      unfold scanStep
      rw [if_neg (not_lt_of_le (hE e₀ (List.mem_cons_self _ _)))]]
    exact foldl_scan_le first last E' acc
      fun e he => hE e (List.mem_cons_of_mem _ he)

theorem scanFarthest_eq (first last : Point) (O A B : List Point) (q : Point)
    (hI : (O.drop 1).dropLast = A ++ q :: B)
    (hd : 0 < perpDistSq q first last)
    (hA : ∀ p ∈ A, perpDistSq p first last < perpDistSq q first last)
    (hB : ∀ p ∈ B, perpDistSq p first last ≤ perpDistSq q first last) :
    scanFarthest first last O = (perpDistSq q first last, A.length + 1) := by
  unfold scanFarthest
  rw [hI, enumFrom_append, List.enumFrom_cons, List.foldl_append,
    List.foldl_cons]
  have hacc : ((List.enumFrom 1 A).foldl (scanStep first last) (0, 0)).1 <
      perpDistSq q first last :=
    foldl_scan_lt first last _ _ _
      (fun e he => hA e.2 (mem_enumFrom_spec A 1 e he).2.2) hd
  rw [show scanStep first last
      ((List.enumFrom 1 A).foldl (scanStep first last) (0, 0))
      (1 + A.length, q) = (perpDistSq q first last, 1 + A.length) from by
    show (if perpDistSq q first last >
        ((List.enumFrom 1 A).foldl (scanStep first last) (0, 0)).1 then
      (perpDistSq q first last, 1 + A.length)
      else (List.enumFrom 1 A).foldl (scanStep first last) (0, 0)) =
      (perpDistSq q first last, 1 + A.length)
    rw [if_pos hacc]]
  rw [foldl_scan_le first last _ _
    (fun e he => hB e.2 (mem_enumFrom_spec B _ e he).2.2)]
  rw [Nat.add_comm]

/-! ## List decomposition helpers -/

theorem dropLast_append_getLastD {α : Type} :
    ∀ (l : List α) (d : α), l ≠ [] → l.dropLast ++ [l.getLastD d] = l
  | [], _, h => absurd rfl h
  | [a], _, _ => rfl
  | a :: b :: l, d, _ => by
    have ih := dropLast_append_getLastD (b :: l) a (List.cons_ne_nil _ _)
    rw [List.dropLast_cons₂, List.getLastD_cons, List.cons_append, ih]

theorem decomp_pts (pts : List Point) (h : 2 ≤ pts.length) :
    pts = pts.headD default ::
      ((pts.drop 1).dropLast ++ [pts.getLastD default]) := by
  cases pts with
  | nil => simp at h
  | cons p rest =>
    cases rest with
    | nil => simp at h
    | cons r rs =>
      show p :: r :: rs =
        p :: ((r :: rs).dropLast ++ [(p :: r :: rs).getLastD default])
      rw [List.getLastD_cons,
        dropLast_append_getLastD (r :: rs) p (List.cons_ne_nil _ _)]

theorem take_decomp {α : Type} (f q l : α) (I₁ I₂ : List α) :
    (f :: (I₁ ++ q :: I₂) ++ [l]).take (I₁.length + 2) = f :: I₁ ++ [q] := by
  rw [List.take_append_of_le_length (by
    simp only [List.length_cons, List.length_append]
    omega)]
  rw [show I₁.length + 2 = I₁.length + 1 + 1 from rfl, List.take_succ_cons,
    @List.take_append _ I₁ (q :: I₂) 1]
  simp

theorem drop_decomp {α : Type} (f q l : α) (I₁ I₂ : List α) :
    (f :: (I₁ ++ q :: I₂) ++ [l]).drop (I₁.length + 1) = q :: I₂ ++ [l] := by
  rw [List.drop_append_of_le_length (by
    simp only [List.length_cons, List.length_append]
    omega)]
  rw [List.drop_succ_cons, List.drop_left]

theorem head?_dropLast {α : Type} (l : List α) (h : 2 ≤ l.length) :
    l.dropLast.head? = l.head? := by
  cases l with
  | nil => simp at h
  | cons a t =>
    cases t with
    | nil => simp at h
    | cons b t' =>
      rw [List.dropLast_cons₂]
      rfl

theorem dropLast_sublist_concat {α : Type} (l t : List α) (a : α)
    (h : List.Sublist l (t ++ [a])) : List.Sublist l.dropLast t := by
  rcases List.sublist_append_iff.mp h with ⟨x, y, rfl, hx, hy⟩
  cases y with
  | nil =>
    rw [List.append_nil]
    exact (List.dropLast_sublist _).trans hx
  | cons b y' =>
    cases y' with
    | nil =>
      rw [List.dropLast_concat]
      exact hx
    | cons c y'' =>
      have := hy.length_le
      simp at this

/-! ## simplifyPath equations -/

theorem simplifyPathFuel_short (fuel : Nat) (pts : List Point) (ε : ℚ)
    (h : pts.length ≤ 2) : simplifyPathFuel fuel pts ε = pts := by
  cases fuel with
  | zero => rfl
  | succ g =>
    show (if pts.length ≤ 2 then pts else _) = pts
    rw [if_pos h]

theorem simplifyPath_short (pts : List Point) (ε : ℚ)
    (h : pts.length ≤ 2) : simplifyPath pts ε = pts :=
  simplifyPathFuel_short _ _ _ h

theorem simplifyPathFuel_step (fuel : Nat) (pts : List Point) (ε : ℚ)
    (h3 : ¬ pts.length ≤ 2) :
    simplifyPathFuel (fuel + 1) pts ε =
      if (scanFarthest (pts.headD default) (pts.getLastD default) pts).1 >
          ε * ε then
        (simplifyPathFuel fuel
            (pts.take ((scanFarthest (pts.headD default)
              (pts.getLastD default) pts).2 + 1)) ε).dropLast ++
          simplifyPathFuel fuel
            (pts.drop (scanFarthest (pts.headD default)
              (pts.getLastD default) pts).2) ε
      else [pts.headD default, pts.getLastD default] := by
  show (if pts.length ≤ 2 then pts else _) = _
  rw [if_neg h3]

theorem scan_snd_range (first last : Point) (pts : List Point)
    (h3 : 3 ≤ pts.length) (hpos : 0 < (scanFarthest first last pts).1) :
    1 ≤ (scanFarthest first last pts).2 ∧
      (scanFarthest first last pts).2 + 2 ≤ pts.length := by
  unfold scanFarthest at hpos ⊢
  rcases scan_foldl_spec first last
      (List.enumFrom 1 (pts.drop 1).dropLast) (0, 0) with
    ⟨heq, _⟩ | ⟨E₁, e, E₂, hE, heq, _, _, _⟩
  · rw [heq] at hpos
    norm_num at hpos
  · rw [heq]
    have hmem : e ∈ List.enumFrom 1 (pts.drop 1).dropLast := by
      rw [hE]
      exact List.mem_append_right _ (List.mem_cons_self _ _)
    obtain ⟨h1, h2, _⟩ := mem_enumFrom_spec _ 1 e hmem
    simp only [List.length_dropLast, List.length_drop] at h2
    exact ⟨h1, by omega⟩

theorem simplifyPathFuel_congr (n : Nat) :
    ∀ (pts : List Point) (ε : ℚ) (fuel₁ fuel₂ : Nat),
      pts.length ≤ n → pts.length ≤ fuel₁ → pts.length ≤ fuel₂ →
      simplifyPathFuel fuel₁ pts ε = simplifyPathFuel fuel₂ pts ε := by
  induction n with
  | zero =>
    intro pts ε f₁ f₂ hn _ _
    have h0 : pts.length ≤ 2 := by omega
    rw [simplifyPathFuel_short _ _ _ h0, simplifyPathFuel_short _ _ _ h0]
  | succ n ih =>
    intro pts ε f₁ f₂ hn h1 h2
    by_cases hsh : pts.length ≤ 2
    · rw [simplifyPathFuel_short _ _ _ hsh, simplifyPathFuel_short _ _ _ hsh]
    · obtain ⟨g₁, rfl⟩ : ∃ g, f₁ = g + 1 := ⟨f₁ - 1, by omega⟩
      obtain ⟨g₂, rfl⟩ : ∃ g, f₂ = g + 1 := ⟨f₂ - 1, by omega⟩
      rw [simplifyPathFuel_step g₁ pts ε hsh,
        simplifyPathFuel_step g₂ pts ε hsh]
      by_cases hgt :
        (scanFarthest (pts.headD default) (pts.getLastD default) pts).1 >
          ε * ε
      · rw [if_pos hgt, if_pos hgt]
        have hpos : 0 <
            (scanFarthest (pts.headD default) (pts.getLastD default)
              pts).1 :=
          lt_of_le_of_lt (mul_self_nonneg ε) hgt
        obtain ⟨hm1, hm2⟩ := scan_snd_range _ _ pts (by omega) hpos
        have htake : (pts.take
            ((scanFarthest (pts.headD default) (pts.getLastD default)
              pts).2 + 1)).length ≤ pts.length - 1 := by
          simp only [List.length_take]
          omega
        have hdrop : (pts.drop
            ((scanFarthest (pts.headD default) (pts.getLastD default)
              pts).2)).length ≤ pts.length - 1 := by
          simp only [List.length_drop]
          omega
        rw [ih _ ε g₁ g₂ (by omega) (by omega) (by omega),
          ih _ ε g₁ g₂ (by omega) (by omega) (by omega)]
      · rw [if_neg hgt, if_neg hgt]

theorem simplifyPath_fuel (pts : List Point) (ε : ℚ) (fuel : Nat)
    (h : pts.length ≤ fuel) :
    simplifyPathFuel fuel pts ε = simplifyPath pts ε := by
  unfold simplifyPath
  exact simplifyPathFuel_congr pts.length pts ε fuel pts.length
    (le_refl _) h (le_refl _)

/-! ## The recursion structure of a simplification step -/

theorem simplify_rec_struct (pts : List Point) (ε : ℚ) (h3 : 3 ≤ pts.length)
    (hgt : (scanFarthest (pts.headD default) (pts.getLastD default) pts).1 >
      ε * ε) :
    ∃ I₁ q I₂,
      pts = pts.headD default :: (I₁ ++ q :: I₂) ++ [pts.getLastD default] ∧
      scanFarthest (pts.headD default) (pts.getLastD default) pts =
        (perpDistSq q (pts.headD default) (pts.getLastD default),
          I₁.length + 1) ∧
      (∀ p ∈ I₁, perpDistSq p (pts.headD default) (pts.getLastD default) <
        perpDistSq q (pts.headD default) (pts.getLastD default)) ∧
      (∀ p ∈ I₂, perpDistSq p (pts.headD default) (pts.getLastD default) ≤
        perpDistSq q (pts.headD default) (pts.getLastD default)) ∧
      simplifyPath pts ε =
        (simplifyPath (pts.headD default :: I₁ ++ [q]) ε).dropLast ++
          simplifyPath (q :: I₂ ++ [pts.getLastD default]) ε := by
  have hsh : ¬ pts.length ≤ 2 := by omega
  rcases scan_foldl_spec (pts.headD default) (pts.getLastD default)
      (List.enumFrom 1 (pts.drop 1).dropLast) (0, 0) with
    ⟨heq, _⟩ | ⟨E₁, e, E₂, hE, heq, _, hstrict, hle⟩
  · exfalso
    have hz : (scanFarthest (pts.headD default) (pts.getLastD default)
        pts).1 = 0 := by
      unfold scanFarthest
      rw [heq]
    rw [hz] at hgt
    exact absurd hgt (not_lt_of_le (mul_self_nonneg ε))
  · have hscan : scanFarthest (pts.headD default) (pts.getLastD default)
        pts =
        (perpDistSq e.2 (pts.headD default) (pts.getLastD default), e.1) := by
      unfold scanFarthest
      rw [heq]
    have hidx := enum_split_idx E₁ 1 (pts.drop 1).dropLast E₂ e hE
    have hsnd := enum_split_snd 1 (pts.drop 1).dropLast E₁ E₂ e hE
    have hpts_eq : pts = pts.headD default ::
        (E₁.map Prod.snd ++ e.2 :: E₂.map Prod.snd) ++
          [pts.getLastD default] := by
      conv_lhs => rw [decomp_pts pts (by omega), hsnd]
      rw [List.cons_append]
    refine ⟨E₁.map Prod.snd, e.2, E₂.map Prod.snd, hpts_eq, ?_, ?_, ?_, ?_⟩
    · rw [hscan]
      congr 1
      rw [hidx, List.length_map]
      omega
    · intro p hp
      obtain ⟨x, hx, rfl⟩ := List.mem_map.mp hp
      exact hstrict x hx
    · intro p hp
      obtain ⟨x, hx, rfl⟩ := List.mem_map.mp hp
      exact hle x hx
    · have hlen_pts : pts.length = E₁.length + E₂.length + 3 := by
        conv_lhs => rw [hpts_eq]
        simp only [List.cons_append, List.length_cons, List.length_append,
          List.length_singleton, List.length_map, List.length_nil]
        omega
      have hm : (scanFarthest (pts.headD default) (pts.getLastD default)
          pts).2 = (E₁.map Prod.snd).length + 1 := by
        rw [hscan, hidx]
        show 1 + E₁.length = (E₁.map Prod.snd).length + 1
        rw [List.length_map]
        omega
      have hfl : simplifyPath pts ε =
          simplifyPathFuel ((pts.length - 1) + 1) pts ε :=
        congrArg (fun k => simplifyPathFuel k pts ε)
          (show pts.length = pts.length - 1 + 1 by omega)
      rw [hfl, simplifyPathFuel_step _ _ _ hsh, if_pos hgt, hm]
      have htake_eq : pts.take ((E₁.map Prod.snd).length + 1 + 1) =
          pts.headD default :: E₁.map Prod.snd ++ [e.2] := by
        conv_lhs => rw [hpts_eq]
        exact take_decomp _ _ _ _ _
      have hdrop_eq : pts.drop ((E₁.map Prod.snd).length + 1) =
          e.2 :: E₂.map Prod.snd ++ [pts.getLastD default] := by
        conv_lhs => rw [hpts_eq]
        exact drop_decomp _ _ _ _ _
      have hfuelL : simplifyPathFuel (pts.length - 1)
          (pts.headD default :: E₁.map Prod.snd ++ [e.2]) ε =
          simplifyPath (pts.headD default :: E₁.map Prod.snd ++ [e.2]) ε := by
        apply simplifyPath_fuel
        simp only [List.cons_append, List.length_cons, List.length_append,
          List.length_singleton, List.length_map, List.length_nil]
        omega
      have hfuelR : simplifyPathFuel (pts.length - 1)
          (e.2 :: E₂.map Prod.snd ++ [pts.getLastD default]) ε =
          simplifyPath (e.2 :: E₂.map Prod.snd ++ [pts.getLastD default]) ε := by
        apply simplifyPath_fuel
        simp only [List.cons_append, List.length_cons, List.length_append,
          List.length_singleton, List.length_map, List.length_nil]
        omega
      rw [htake_eq, hdrop_eq, hfuelL, hfuelR]

/-! ## Shape of the output -/

theorem simplify_shape_aux (n : Nat) : ∀ (pts : List Point) (ε : ℚ),
    pts.length ≤ n → 2 ≤ pts.length →
    (simplifyPath pts ε).head? = pts.head? ∧
    (simplifyPath pts ε).getLast? = pts.getLast? ∧
    2 ≤ (simplifyPath pts ε).length ∧
    List.Sublist (simplifyPath pts ε) pts := by
  induction n with
  | zero =>
    intro pts ε hn h2
    omega
  | succ n ih =>
    intro pts ε hn h2
    by_cases hsh : pts.length ≤ 2
    · rw [simplifyPath_short pts ε hsh]
      exact ⟨rfl, rfl, h2, List.Sublist.refl pts⟩
    · by_cases hgt :
        (scanFarthest (pts.headD default) (pts.getLastD default) pts).1 >
          ε * ε
      · obtain ⟨I₁, q, I₂, hpts, hscan, hstrict, hle, hval⟩ :=
          simplify_rec_struct pts ε (by omega) hgt
        have hLlen : (pts.headD default :: I₁ ++ [q]).length =
            I₁.length + 2 := by
          simp only [List.cons_append, List.length_cons, List.length_append,
            List.length_singleton, List.length_map, List.length_nil]
        have hRlen : (q :: I₂ ++ [pts.getLastD default]).length =
            I₂.length + 2 := by
          simp only [List.cons_append, List.length_cons, List.length_append,
            List.length_singleton, List.length_map, List.length_nil]
        have hlen_pts : pts.length = I₁.length + I₂.length + 3 := by
          conv_lhs => rw [hpts]
          simp only [List.cons_append, List.length_cons, List.length_append,
            List.length_singleton, List.length_map, List.length_nil]
          omega
        obtain ⟨hLh, hLl, hL2, hLsub⟩ :=
          ih (pts.headD default :: I₁ ++ [q]) ε (by omega) (by omega)
        obtain ⟨hRh, hRl, hR2, hRsub⟩ :=
          ih (q :: I₂ ++ [pts.getLastD default]) ε (by omega) (by omega)
        rw [hval]
        refine ⟨?_, ?_, ?_, ?_⟩
        · rw [List.head?_append, head?_dropLast _ hL2, hLh]
          rw [show (pts.headD default :: I₁ ++ [q]).head? =
            some (pts.headD default) from by rw [List.cons_append]; rfl]
          rw [show pts.head? = some (pts.headD default) from by
            conv_lhs => rw [hpts]
            rw [List.cons_append]
            rfl]
          rfl
        · rw [List.getLast?_append, hRl]
          rw [show (q :: I₂ ++ [pts.getLastD default]).getLast? =
            some (pts.getLastD default) from by
            rw [List.getLast?_concat]]
          rw [show pts.getLast? = some (pts.getLastD default) from by
            conv_lhs => rw [hpts]
            rw [List.getLast?_concat]]
          rfl
        · rw [List.length_append, List.length_dropLast]
          omega
        · have hLd : List.Sublist (simplifyPath
              (pts.headD default :: I₁ ++ [q]) ε).dropLast
              (pts.headD default :: I₁) :=
            dropLast_sublist_concat _ _ q hLsub
          have happ := hLd.append hRsub
          have hXY : (pts.headD default :: I₁) ++
              (q :: I₂ ++ [pts.getLastD default]) =
              pts.headD default :: (I₁ ++ q :: I₂) ++
                [pts.getLastD default] := by
            simp
          conv_rhs => rw [hpts]
          exact hXY ▸ happ
      · have hfl : simplifyPath pts ε =
            simplifyPathFuel ((pts.length - 1) + 1) pts ε :=
          congrArg (fun k => simplifyPathFuel k pts ε)
            (show pts.length = pts.length - 1 + 1 by omega)
        have hd : pts = pts.headD default ::
            ((pts.drop 1).dropLast ++ [pts.getLastD default]) :=
          decomp_pts pts (by omega)
        rw [hfl, simplifyPathFuel_step _ _ _ hsh, if_neg hgt]
        refine ⟨?_, ?_, by simp, ?_⟩
        · rw [show pts.head? = some (pts.headD default) from by
            conv_lhs => rw [hd]
            rfl]
          rfl
        · rw [show pts.getLast? = some (pts.getLastD default) from by
            conv_lhs => rw [hd]
            rw [show pts.headD default :: ((pts.drop 1).dropLast ++
                [pts.getLastD default]) = (pts.headD default ::
                (pts.drop 1).dropLast) ++ [pts.getLastD default] from by
              rw [List.cons_append]]
            rw [List.getLast?_concat]]
          rfl
        · conv_rhs => rw [hd]
          exact List.Sublist.cons₂ _ (List.sublist_append_right _ _)

theorem simplify_shape (pts : List Point) (ε : ℚ) (h2 : 2 ≤ pts.length) :
    (simplifyPath pts ε).head? = pts.head? ∧
    (simplifyPath pts ε).getLast? = pts.getLast? ∧
    2 ≤ (simplifyPath pts ε).length ∧
    List.Sublist (simplifyPath pts ε) pts :=
  simplify_shape_aux pts.length pts ε (le_refl _) h2

/-! ## Idempotence -/

theorem simplify_idem_aux (n : Nat) : ∀ (pts : List Point) (ε : ℚ),
    pts.length ≤ n →
    simplifyPath (simplifyPath pts ε) ε = simplifyPath pts ε := by
  induction n with
  | zero =>
    intro pts ε hn
    have h0 : pts.length ≤ 2 := by omega
    rw [simplifyPath_short pts ε h0, simplifyPath_short pts ε h0]
  | succ n ih =>
    intro pts ε hn
    by_cases hsh : pts.length ≤ 2
    · rw [simplifyPath_short pts ε hsh, simplifyPath_short pts ε hsh]
    · by_cases hgt :
        (scanFarthest (pts.headD default) (pts.getLastD default) pts).1 >
          ε * ε
      · obtain ⟨I₁, q, I₂, hpts, hscan, hstrict, hle, hval⟩ :=
          simplify_rec_struct pts ε (by omega) hgt
        have hdm_pos : 0 <
            perpDistSq q (pts.headD default) (pts.getLastD default) := by
          have hgt' :
              perpDistSq q (pts.headD default) (pts.getLastD default) >
                ε * ε := by
            rw [hscan] at hgt
            exact hgt
          exact lt_of_le_of_lt (mul_self_nonneg ε) hgt'
        have hlen_pts : pts.length = I₁.length + I₂.length + 3 := by
          conv_lhs => rw [hpts]
          simp only [List.cons_append, List.length_cons, List.length_append,
            List.length_singleton, List.length_map, List.length_nil]
          omega
        have hLlen : (pts.headD default :: I₁ ++ [q]).length =
            I₁.length + 2 := by
          simp only [List.cons_append, List.length_cons, List.length_append,
            List.length_singleton, List.length_map, List.length_nil]
        have hRlen : (q :: I₂ ++ [pts.getLastD default]).length =
            I₂.length + 2 := by
          simp only [List.cons_append, List.length_cons, List.length_append,
            List.length_singleton, List.length_map, List.length_nil]
        obtain ⟨hLh, hLl, hL2, hLsub⟩ :=
          simplify_shape (pts.headD default :: I₁ ++ [q]) ε (by omega)
        obtain ⟨hRh, hRl, hR2, hRsub⟩ :=
          simplify_shape (q :: I₂ ++ [pts.getLastD default]) ε (by omega)
        have hLidem := ih (pts.headD default :: I₁ ++ [q]) ε (by omega)
        have hRidem := ih (q :: I₂ ++ [pts.getLastD default]) ε (by omega)
        set F := pts.headD default with hF
        set L := pts.getLastD default with hL
        set lf := simplifyPath (F :: I₁ ++ [q]) ε with hlf
        set rt := simplifyPath (q :: I₂ ++ [L]) ε with hrt
        have hlf_eq : lf.dropLast ++ [q] = lf := by
          apply List.dropLast_append_getLast?
          apply Option.mem_def.mpr
          rw [hLl, List.getLast?_concat]
        have hlfd_head : lf.dropLast.head? = some F := by
          rw [head?_dropLast _ hL2, hLh, List.cons_append]
          rfl
        obtain ⟨A, hA_eq⟩ : ∃ A, lf.dropLast = F :: A := by
          cases hc : lf.dropLast with
          | nil => rw [hc] at hlfd_head; simp at hlfd_head
          | cons z zs =>
            rw [hc] at hlfd_head
            simp only [List.head?_cons, Option.some.injEq] at hlfd_head
            exact ⟨zs, by rw [hlfd_head]⟩
        obtain ⟨rt', hrt_eq⟩ : ∃ t, rt = q :: t := by
          cases hc : rt with
          | nil =>
            rw [hc] at hRh
            simp only [List.head?_nil] at hRh
            exact absurd hRh.symm (by simp [List.cons_append])
          | cons z zs =>
            rw [hc] at hRh
            rw [List.cons_append] at hRh
            simp only [List.head?_cons, Option.some.injEq] at hRh
            exact ⟨zs, by rw [hRh]⟩
        have hrt'_ne : rt' ≠ [] := by
          intro hc
          rw [hc] at hrt_eq
          have hlen := congrArg List.length hrt_eq
          simp only [List.length_cons, List.length_nil] at hlen
          omega
        have hrtL : rt.getLast? = some L := by
          rw [hRl, List.getLast?_concat]
        have hrt'_last : rt'.getLast? = some L := by
          cases rt' with
          | nil => exact absurd rfl hrt'_ne
          | cons z zs =>
            rw [hrt_eq, List.getLast?_cons_cons] at hrtL
            exact hrtL
        have hrt'_decomp : rt'.dropLast ++ [L] = rt' :=
          List.dropLast_append_getLast? L (Option.mem_def.mpr hrt'_last)
        set B := rt'.dropLast with hB
        have hO_eq : lf.dropLast ++ rt = F :: (A ++ q :: B) ++ [L] := by
          rw [hA_eq, hrt_eq, ← hrt'_decomp]
          simp
        have hLd : List.Sublist lf.dropLast (F :: I₁) :=
          dropLast_sublist_concat _ _ q hLsub
        have hA_elems : ∀ p ∈ A, perpDistSq p F L < perpDistSq q F L := by
          intro p hp
          have hp2 : p ∈ lf.dropLast := by
            rw [hA_eq]
            exact List.mem_cons_of_mem F hp
          have hp3 : p ∈ F :: I₁ := hLd.subset hp2
          rcases List.mem_cons.mp hp3 with rfl | hp4
          · rw [perpDistSq_start]
            exact hdm_pos
          · exact hstrict p hp4
        have hB_elems : ∀ p ∈ B, perpDistSq p F L ≤ perpDistSq q F L := by
          intro p hp
          have hp2 : p ∈ rt := by
            rw [hrt_eq]
            apply List.mem_cons_of_mem q
            rw [← hrt'_decomp]
            exact List.mem_append_left _ hp
          have hp3 : p ∈ q :: I₂ ++ [L] := hRsub.subset hp2
          rw [List.cons_append] at hp3
          rcases List.mem_cons.mp hp3 with rfl | hp4
          · exact le_refl _
          · rcases List.mem_append.mp hp4 with hp5 | hp5
            · exact hle p hp5
            · rw [List.mem_singleton.mp hp5, perpDistSq_end]
              exact le_of_lt hdm_pos
        have hscanO : scanFarthest F L (lf.dropLast ++ rt) =
            (perpDistSq q F L, A.length + 1) := by
          apply scanFarthest_eq F L _ A B q _ hdm_pos hA_elems hB_elems
          rw [hO_eq, List.cons_append, List.drop_succ_cons, List.drop_zero,
            List.dropLast_concat]
        have hOlen : (lf.dropLast ++ rt).length =
            lf.length - 1 + rt.length := by
          rw [List.length_append, List.length_dropLast]
        have hO_head : (lf.dropLast ++ rt).headD default = F := by
          rw [hO_eq, List.cons_append]
          rfl
        have hO_last : (lf.dropLast ++ rt).getLastD default = L := by
          rw [hO_eq, List.getLastD_eq_getLast?, List.getLast?_concat]
          rfl
        have hO_take : (lf.dropLast ++ rt).take (A.length + 1 + 1) = lf := by
          rw [hO_eq, show A.length + 1 + 1 = A.length + 2 from rfl,
            take_decomp, ← hA_eq]
          exact hlf_eq
        have hO_drop : (lf.dropLast ++ rt).drop (A.length + 1) = rt := by
          rw [hO_eq, drop_decomp, hrt_eq, List.cons_append, hrt'_decomp]
        have hOsh : ¬ (lf.dropLast ++ rt).length ≤ 2 := by omega
        have hOfl : simplifyPath (lf.dropLast ++ rt) ε =
            simplifyPathFuel (((lf.dropLast ++ rt).length - 1) + 1)
              (lf.dropLast ++ rt) ε :=
          congrArg (fun k => simplifyPathFuel k (lf.dropLast ++ rt) ε)
            (show (lf.dropLast ++ rt).length =
              (lf.dropLast ++ rt).length - 1 + 1 by omega)
        have hgt' : perpDistSq q F L > ε * ε := by
          rw [hscan] at hgt
          exact hgt
        rw [hval]
        rw [hOfl, simplifyPathFuel_step _ _ _ hOsh, hO_head, hO_last,
          hscanO]
        dsimp only
        rw [if_pos hgt', hO_take, hO_drop,
          simplifyPath_fuel lf ε _ (by omega),
          simplifyPath_fuel rt ε _ (by omega), hLidem, hRidem]
      · have hfl : simplifyPath pts ε =
            simplifyPathFuel ((pts.length - 1) + 1) pts ε :=
          congrArg (fun k => simplifyPathFuel k pts ε)
            (show pts.length = pts.length - 1 + 1 by omega)
        have hO : simplifyPath pts ε =
            [pts.headD default, pts.getLastD default] := by
          rw [hfl, simplifyPathFuel_step _ _ _ hsh, if_neg hgt]
        rw [hO, simplifyPath_short _ _ (by simp)]

/-- C9: `simplifyPath` is idempotent — applying it a second time with the
same epsilon to its own output returns that output unchanged.  The embedding
compares squared distances against `epsilon * epsilon`, which agrees with the
source's `maxDistance > epsilon` comparison exactly for nonnegative epsilon
(the API's default is 2, and negative epsilons would drive the source's
recursion into a non-terminating `slice(0)` self-call on collinear input);
the theorem is therefore stated for `0 ≤ epsilon`. -/
theorem claim_C9_simplifyPath_idempotent (points : List Point)
    (epsilon : ℚ) (hε : 0 ≤ epsilon) :
    simplifyPath (simplifyPath points epsilon) epsilon =
      simplifyPath points epsilon :=
  simplify_idem_aux points.length points epsilon (le_refl _)

/-- Witness for C9: three collinear points with the default epsilon 2 are
simplified to their endpoints, and re-simplifying is the identity. -/
theorem claim_C9_simplifyPath_idempotent_witness :
    (0 : ℚ) ≤ 2 ∧
      simplifyPath (simplifyPath [⟨0, 0⟩, ⟨1, 0⟩, ⟨2, 0⟩] 2) 2 =
        simplifyPath [⟨0, 0⟩, ⟨1, 0⟩, ⟨2, 0⟩] 2 :=
  ⟨by norm_num,
    claim_C9_simplifyPath_idempotent [⟨0, 0⟩, ⟨1, 0⟩, ⟨2, 0⟩] 2
      (by norm_num)⟩

end PDFEditor
